import Mathlib

/-!
Verification of the two algorithm exercises in this repository against their
natural-language specification.

* `IonFlux.solution` embeds `solution(h, q)` from `2.5_Ion_Flux_Relabelling.py`:
  parents of nodes in a perfect binary tree labelled by post-order traversal.
* `Doomsday.solution` embeds `solution(m)` from `3.1_Doomsday_Fuel.py`:
  absorption probabilities of an absorbing Markov chain given as an integer
  transition-count matrix.

The Python source of the Doomsday exercise computes the linear-algebra step in
IEEE-754 binary64 floats and recovers fractions afterwards via
`Fraction(x).limit_denominator()`.  The development therefore carries two
embeddings of that pipeline, side by side:

* an *exact-rational idealization* (`Doomsday.solution`): `numpy` division
  becomes division in `ℚ`, `np.linalg.inv` becomes the exact inverse
  `det⁻¹ • adjugate` (raising "Singular matrix" exactly when the matrix is
  singular), and `Fraction(x).limit_denominator()` becomes the reduced
  numerator/denominator pair of the exact rational.  This is the algorithm's
  mathematical intent, and it coincides with the float program on inputs whose
  intermediate values are exactly representable (such as the worked examples);
* a *float-faithful model* (`Doomsday.solutionF`): every value is the exact
  rational carried by a binary64 double, `fl` rounds to nearest (ties to
  even, 53-bit significand, normal range), division and subtraction round
  once as IEEE requires, `np.linalg.inv` is elimination with partial
  pivoting over rounded operations raising "Singular matrix" exactly when a
  pivot vanishes, and `limit_denominator` is CPython's bounded
  continued-fraction best approximation with its `max_denominator = 10^6`
  default.  The float model exhibits the departures of the real program from
  the idealization: rounding can collapse `I - Q` to a singular float matrix,
  and `limit_denominator` can truncate, so that the emitted numerators no
  longer sum to the emitted denominator.
-/

namespace IonFlux

/-- One conditional store of the Python dict mutation
`if k in parentLabels and parentLabels[k] == -1: parentLabels[k] = v`,
on an ordered association list (the `OrderedDict` of the source). -/
def store (d : List (ℕ × ℤ)) (k : ℕ) (v : ℤ) : List (ℕ × ℤ) :=
  d.map fun kv => (kv.1, if kv.1 = k ∧ kv.2 = -1 then v else kv.2)

/-- The recursive traversal `dfs(subtreeSize, offset)` of the source, with the
mutable `parentLabels` dictionary passed explicitly.  The source halves the
size (`subtreeSize >> 1`), computes `leftNode = offset + subtreeSize`,
`rightNode = leftNode + subtreeSize`, `parentNode = rightNode + 1`, stores the
parent for `leftNode` and `rightNode` on first visit, then recurses into the
left subtree and then the right subtree. -/
def dfs : ℕ → ℕ → List (ℕ × ℤ) → List (ℕ × ℤ)
  | s, o, d =>
    if s < 1 then d
    else
      let s2 := s / 2
      let leftNode := o + s2
      let rightNode := leftNode + s2
      let parentNode := rightNode + 1
      let d2 := store (store d leftNode (parentNode : ℤ)) rightNode (parentNode : ℤ)
      dfs s2 leftNode (dfs s2 o d2)
  termination_by s _ _ => s
  decreasing_by all_goals { simp_wf; omega }

/-- First-occurrence deduplication: the key sequence of
`OrderedDict((c, -1) for c in q)` in the source (re-inserting an existing key
keeps its original position). -/
def dedupFirst : List ℕ → List ℕ
  | [] => []
  | x :: xs => x :: dedupFirst (xs.filter (fun y => y ≠ x))
  termination_by l => l.length
  decreasing_by simp_wf; exact Nat.lt_succ_of_le (List.length_filter_le _ _)

/-- `solution(h, q)` from `2.5_Ion_Flux_Relabelling.py`. -/
def solution (h : ℕ) (q : List ℕ) : List ℤ :=
  let maxSize := 2 ^ h - 1
  let parentLabels := (dedupFirst q).map (fun c => (c, (-1 : ℤ)))
  (dfs maxSize 0 parentLabels).map Prod.snd

/-- The pure per-label parent computation implicit in `dfs`: for a subtree of
height `k` whose post-order labels are offset by `o`, the value `dfs` stores
for the key `x` (the first time it stores one).  Mirrors one `dfs` call:
children `o + s2` and `o + 2*s2` of the subtree root map to `o + 2*s2 + 1`,
other keys are resolved in the left (`≤ o + s2`) or right subtree. -/
def parentArith : ℕ → ℕ → ℕ → Option ℕ
  | 0, _, _ => none
  | k+1, o, x =>
    let s2 := 2 ^ k - 1
    if x = o + s2 ∨ x = o + 2 * s2 then some (o + 2 * s2 + 1)
    else if x ≤ o + s2 then parentArith k o x
    else parentArith k (o + s2) x

/-- Modelled from the spec (§3, §4.2): the nodes of the perfect binary tree of
height `h`, each identified by its list of directions from the root
(`false` = left), listed in post-order (left subtree, right subtree, root).
The node with post-order label `x` is `(postPaths h).get (x - 1)`. -/
def postPaths : ℕ → List (List Bool)
  | 0 => []
  | h+1 => (postPaths h).map (List.cons false) ++ (postPaths h).map (List.cons true) ++ [[]]

/-- Position of a path in a list of paths (`List.indexOf` with a definite
decidable equality). -/
def idxOf : List (List Bool) → List Bool → ℕ
  | [], _ => 0
  | a :: l, p => if a = p then 0 else idxOf l p + 1

/-- Modelled from the spec (§4.2 contract): the post-order label of the parent
of the node with post-order label `x` in the perfect tree of height `h`, or
`none` if `x` is not the label of a non-root node.  The parent of a node is
the node whose direction path drops the last step. -/
def specParentLabel (h x : ℕ) : Option ℕ :=
  match x, (postPaths h)[x - 1]? with
  | 0, _ => none
  | _, none => none
  | _, some [] => none
  | _, some p => some (idxOf (postPaths h) p.dropLast + 1)

/-- Modelled from the spec (§8 sibling symmetry): the label of the other child
of `x`'s parent, i.e. of the node whose path flips the last direction of
`x`'s path. -/
def siblingLabel (h x : ℕ) : Option ℕ :=
  match x, (postPaths h)[x - 1]? with
  | 0, _ => none
  | _, none => none
  | _, some [] => none
  | _, some p => some (idxOf (postPaths h) (p.dropLast ++ [! p.getLastD false]) + 1)

end IonFlux

/-- The external interface name the specification gives to `IonFlux.solution`
(§6): `ancestor_labels(height, queries)`. -/
def ancestor_labels (h : ℕ) (q : List ℕ) : List ℤ :=
  IonFlux.solution h q

namespace Doomsday

/-- Laplace expansion of the determinant along the first row.  This is an
executable form of `Matrix.det`, used to embed the (exact content of the)
`np.linalg.inv` call; `detF_eq_det` below shows it agrees with `Matrix.det`. -/
def detF : (n : ℕ) → Matrix (Fin n) (Fin n) ℚ → ℚ
  | 0, _ => 1
  | n+1, M => ∑ j : Fin (n+1), (-1) ^ (j : ℕ) * M 0 j * detF n (M.submatrix Fin.succ j.succAbove)

/-- Executable adjugate (matrix of cofactors), agreeing with
`Matrix.adjugate` by `adjF_eq_adjugate`. -/
def adjF (n : ℕ) (M : Matrix (Fin n) (Fin n) ℚ) : Matrix (Fin n) (Fin n) ℚ :=
  Matrix.of fun i j => detF n (M.updateRow j (Pi.single i 1))

/-- View a list of rows as an `r × c` matrix (missing entries read as `0`;
the callers below always pass well-shaped lists). -/
def listToMat (r c : ℕ) (L : List (List ℚ)) : Matrix (Fin r) (Fin c) ℚ :=
  Matrix.of fun i j => ((L.getD i []).getD j 0)

/-- View a matrix as its list of rows. -/
def matToList {r c : ℕ} (M : Matrix (Fin r) (Fin c) ℚ) : List (List ℚ) :=
  List.ofFn fun i => List.ofFn fun j => M i j

/-- Row (or column) `c` is absorbing: its transition counts sum to zero. -/
def absorbingB (m : List (List ℕ)) (c : ℕ) : Bool :=
  decide ((m.getD c []).sum = 0)

/-- The indices of the non-absorbing (transient) states, in original order. -/
def transientIdx (m : List (List ℕ)) : List ℕ :=
  (List.range m.length).filter (fun i => ! absorbingB m i)

/-- The indices of the absorbing states, in original order. -/
def absorbingIdx (m : List (List ℕ)) : List ℕ :=
  (List.range m.length).filter (fun c => absorbingB m c)

/-- One probability entry `m[i][c] / sum(m[i])` of the standard form, in the
exact-rational idealization (the source divides binary64 floats; `rowProbF`
below is the float-faithful counterpart). -/
def rowProb (m : List (List ℕ)) (i c : ℕ) : ℚ :=
  ((m.getD i []).getD c 0 : ℚ) / ((m.getD i []).sum : ℚ)

/-- `split_matrix(m)` from `3.1_Doomsday_Fuel.py`.  The source walks the rows
once, collecting for every non-absorbing row `i` the probabilities
`m[i][c] / sum(m[i])` split into the absorbing columns (`R`) and the
non-absorbing columns (`Q`), keeping original order in both groups; since the
matrix is square, the column indices examined are exactly the row indices
`range (len m)`.  The source's float division becomes division in `ℚ` in this
idealized form; `split_matrixF` below keeps the rounded float values. -/
def split_matrix (m : List (List ℕ)) : List (List ℚ) × List (List ℚ) :=
  ((transientIdx m).map (fun i => (absorbingIdx m).map (rowProb m i)),
   (transientIdx m).map (fun i => (transientIdx m).map (rowProb m i)))

/-- `find_f_submatrix(q)` from the source, idealized over exact rationals:
`F = (I - Q)⁻¹`, with the `np.linalg.inv` failure modelled as an error exactly
when the exact matrix is singular, and the inverse computed as
`det⁻¹ • adjugate`.  The real call inverts the rounded float matrix instead;
`find_f_submatrixF` below models that faithfully. -/
def find_f_submatrix (q : List (List ℚ)) : Except String (List (List ℚ)) :=
  let n := q.length
  let A := (1 : Matrix (Fin n) (Fin n) ℚ) - listToMat n n q
  if detF n A = 0 then .error "Singular matrix"
  else .ok (matToList ((detF n A)⁻¹ • adjF n A))

/-- `np.dot` on row-lists: ordinary matrix multiplication. -/
def np_dot (A B : List (List ℚ)) : List (List ℚ) :=
  matToList (listToMat A.length B.length A * listToMat B.length (B.headD []).length B)

/-- The gcd `while` loop inside `probabilities`:
`while temp_denom: temp_lcd, temp_denom = temp_denom, temp_lcd % temp_denom`
is exactly the recursion `gcd a b = if b = 0 then a else gcd b (a % b)`,
i.e. `Nat.gcd` with its arguments swapped. -/
def euclid (a b : ℕ) : ℕ := Nat.gcd b a

/-- `probabilities(row)` from the source, idealized over exact rationals: take
numerator and denominator of each entry (for an exactly-represented value,
`Fraction(x).limit_denominator()` returns its reduced fraction whenever the
denominator is within the bound), fold the denominators into their least
common multiple `lcd`, scale every numerator by `lcd / den`, and append
`lcd`.  `probabilitiesF` below keeps the `max_denominator = 10^6` bound and
the `int(lcd / den)` float-division truncation of the source. -/
def probabilities (row : List ℚ) : List ℤ :=
  let nums := row.map Rat.num
  let dens := row.map Rat.den
  let lcd := dens.foldl (fun l d => l / euclid l d * d) 1
  (List.zipWith (fun n d => n * ((lcd / d : ℕ) : ℤ)) nums dens) ++ [(lcd : ℤ)]

/-- `solution(m)` from `3.1_Doomsday_Fuel.py`, over the exact-rational
idealization of the float pipeline (`solutionF` below is the float-faithful
form).  An uncaught
`numpy.linalg.LinAlgError` is modelled as `Except.error`. -/
def solution (m : List (List ℕ)) : Except String (List ℤ) :=
  if m.length ≤ 1 ∨ (m.headD []).sum = 0 then .ok [1, 1]
  else
    let rq := split_matrix m
    match find_f_submatrix rq.2 with
    | .error e => .error e
    | .ok f =>
      let fr := np_dot f rq.1
      .ok (probabilities (fr.headD []))

/-- One observed transition of the chain: the count `m[i][j]` is nonzero. -/
def step (m : List (List ℕ)) (i j : ℕ) : Prop :=
  (m.getD i []).getD j 0 ≠ 0

/-- State `i` is terminal (absorbing): its row of counts sums to zero. -/
def terminal (m : List (List ℕ)) (i : ℕ) : Prop :=
  (m.getD i []).sum = 0

/-- State `i` can reach state `j` along observed transitions. -/
def reaches (m : List (List ℕ)) : ℕ → ℕ → Prop :=
  Relation.ReflTransGen (step m)

/-- The absorption precondition of the spec (§3): from every state there is a
path to some terminal state. -/
def absorbs (m : List (List ℕ)) : Prop :=
  ∀ i < m.length, ∃ c, terminal m c ∧ reaches m i c

/-- The matrix is square: every row has as many entries as there are rows. -/
def square (m : List (List ℕ)) : Prop :=
  ∀ row ∈ m, row.length = m.length

/-- Floor of the base-2 logarithm of a natural number, by structural
recursion on a fuel bound: any fuel at least the bit length of `n` gives the
exact value, and `1100` covers the full binary64 exponent range. -/
def log2Aux : ℕ → ℕ → ℕ
  | 0, _ => 0
  | fuel+1, n => if n ≤ 1 then 0 else log2Aux fuel (n / 2) + 1

/-- Floor of the base-2 logarithm of a positive rational (the binary exponent
of its leading bit). -/
def floorLog2 (q : ℚ) : ℤ :=
  let e0 : ℤ := (log2Aux 1100 q.num.toNat : ℤ) - (log2Aux 1100 q.den : ℤ)
  if q < 2 ^ e0 then e0 - 1 else e0

/-- Round a rational to the nearest integer, ties to the even integer. -/
def roundHalfEven (x : ℚ) : ℤ :=
  let f := ⌊x⌋
  let r := x - (f : ℚ)
  if r < 1/2 then f
  else if 1/2 < r then f + 1
  else if f % 2 = 0 then f else f + 1

/-- The exact rational value of the IEEE-754 binary64 double nearest to `q`
(round to nearest, ties to even, 53-bit significand).  Overflow and the
subnormal range are not modelled: every value the program manipulates on the
inputs considered here is a normal double. -/
def fl (q : ℚ) : ℚ :=
  if q = 0 then 0
  else if 0 < q then
    ((roundHalfEven (q / 2 ^ (floorLog2 q - 52)) : ℤ) : ℚ) * 2 ^ (floorLog2 q - 52)
  else
    -(((roundHalfEven (-q / 2 ^ (floorLog2 (-q) - 52)) : ℤ) : ℚ)
        * 2 ^ (floorLog2 (-q) - 52))

/-- IEEE binary64 division of two doubles (given by their exact values): the
exact quotient rounded once. -/
def flDiv (a b : ℚ) : ℚ := fl (a / b)

/-- Float-faithful probability entry: Python's `m[row][col] / total` converts
the integer numerator to a double, `total` is already `float(sum(m[row]))`,
and the division rounds once. -/
def rowProbF (m : List (List ℕ)) (i c : ℕ) : ℚ :=
  flDiv (fl ((m.getD i []).getD c 0 : ℚ)) (fl (((m.getD i []).sum : ℕ) : ℚ))

/-- `split_matrix(m)` with the source's binary64 division kept: identical to
`split_matrix` except that each entry is the rounded float value. -/
def split_matrixF (m : List (List ℕ)) : List (List ℚ) × List (List ℚ) :=
  ((transientIdx m).map (fun i => (absorbingIdx m).map (rowProbF m i)),
   (transientIdx m).map (fun i => (transientIdx m).map (rowProbF m i)))

/-- `np.subtract(np.identity(n), q)` over doubles: entrywise rounded
subtraction. -/
def subIdF (n : ℕ) (q : List (List ℚ)) : List (List ℚ) :=
  (List.range n).map fun i => (List.range n).map fun j =>
    fl ((if i = j then (1 : ℚ) else 0) - (q.getD i []).getD j 0)

/-- Index of the first entry of maximal absolute value (the pivot search of
partial pivoting, matching LAPACK's first-occurrence `idamax`). -/
def argmaxAbsAux : List ℚ → ℕ → ℚ → ℕ → ℕ
  | [], _, _, best => best
  | x :: xs, i, bv, best =>
    if bv < |x| then argmaxAbsAux xs (i+1) |x| i
    else argmaxAbsAux xs (i+1) bv best

/-- Index of the first entry of maximal absolute value in a nonempty list. -/
def argmaxAbs : List ℚ → ℕ
  | [] => 0
  | x :: xs => argmaxAbsAux xs 1 |x| 0

/-- One elimination step on an augmented matrix: search the pivot in column
`k` at or below row `k`, fail if it is zero, swap it up, scale the pivot row,
and eliminate the column from every other row, every arithmetic operation
rounded to binary64. -/
def elimStep (k : ℕ) (A : List (List ℚ)) : Except String (List (List ℚ)) :=
  let colk := (List.range (A.length - k)).map fun r => (A.getD (k + r) []).getD k 0
  let p := k + argmaxAbs colk
  let piv := (A.getD p []).getD k 0
  if piv = 0 then .error "Singular matrix"
  else
    let rowk := A.getD k []
    let A1 := (A.set k (A.getD p [])).set p rowk
    let pivRow := (A1.getD k []).map fun x => fl (x / piv)
    let A2 := A1.set k pivRow
    .ok ((List.range A2.length).map fun i =>
      if i = k then pivRow
      else
        let f := (A2.getD i []).getD k 0
        List.zipWith (fun a b => fl (a - fl (f * b))) (A2.getD i []) pivRow)

/-- Run `fuel` elimination steps starting at column `k`. -/
def gjAux : ℕ → ℕ → List (List ℚ) → Except String (List (List ℚ))
  | 0, _, A => .ok A
  | fuel+1, k, A =>
    match elimStep k A with
    | .error e => .error e
    | .ok A2 => gjAux fuel (k+1) A2

/-- Model of `np.linalg.inv` on doubles: elimination with partial pivoting
over rounded operations on the matrix augmented with the identity, raising
`LinAlgError("Singular matrix")` exactly when a pivot vanishes — the
documented failure condition of LAPACK's LU factorization.  The concrete
instances evaluated below only invert 1-by-1 matrices and matrices whose
entries are exact small binary fractions, where every float elimination
order computes the same values. -/
def invF (q : List (List ℚ)) : Except String (List (List ℚ)) :=
  let n := q.length
  let aug := (List.range n).map fun i =>
    (q.getD i []) ++ ((List.range n).map fun j => if i = j then (1 : ℚ) else 0)
  match gjAux n 0 aug with
  | .error e => .error e
  | .ok A => .ok ((List.range n).map fun i => (A.getD i []).drop n)

/-- `find_f_submatrix(q)` with the float semantics kept: subtract the rounded
`Q` from the identity in doubles and invert in doubles. -/
def find_f_submatrixF (q : List (List ℚ)) : Except String (List (List ℚ)) :=
  invF (subIdF q.length q)

/-- Left-fold accumulation of doubles, each addition rounded. -/
def flSumL (l : List ℚ) : ℚ := l.foldl (fun acc x => fl (acc + x)) 0

/-- `np.dot` on double row-lists: every product and every accumulation
rounded (left-fold order; the concrete instances below only take single-term
sums, where every summation order agrees). -/
def np_dotF (A B : List (List ℚ)) : List (List ℚ) :=
  (List.range A.length).map fun i =>
    (List.range (B.headD []).length).map fun j =>
      flSumL ((List.range B.length).map fun k =>
        fl ((A.getD i []).getD k 0 * (B.getD k []).getD j 0))

/-- The continued-fraction loop of CPython's `Fraction.limit_denominator`:
`p0, q0, p1, q1 = 0, 1, 1, 0`, then repeatedly `a = n // d`, stop when
`q0 + a*q1` would exceed the bound, else advance the convergents and replace
`(n, d)` by `(d, n mod d)`.  Structural recursion on a fuel argument; `d`
strictly decreases on every iteration, so fuel equal to the initial `d`
always reaches the loop's own exit. -/
def limitDenLoop (M : ℕ) : ℕ → ℕ → ℕ → ℕ → ℕ → ℕ → ℕ → (ℕ × ℕ × ℕ × ℕ)
  | 0, _, _, p0, q0, p1, q1 => (p0, q0, p1, q1)
  | fuel+1, n, d, p0, q0, p1, q1 =>
    if d = 0 then (p0, q0, p1, q1)
    else
      let a := n / d
      let q2 := q0 + a * q1
      if M < q2 then (p0, q0, p1, q1)
      else limitDenLoop M fuel d (n % d) p1 q1 (p0 + a * p1) q2

/-- `Fraction(x).limit_denominator(M)` of CPython for a nonnegative fraction
(every value handed to it by this program is nonnegative): if the denominator
already fits, return `x`; otherwise run the convergent loop and return the
closer of the two candidate bounds, ties to the upper convergent. -/
def limitDen (M : ℕ) (x : ℚ) : ℚ :=
  if x.den ≤ M then x
  else
    let r := limitDenLoop M x.den x.num.toNat x.den 0 1 1 0
    let k := (M - r.2.1) / r.2.2.2
    let b1 : ℚ := ((r.1 + k * r.2.2.1 : ℕ) : ℚ) / ((r.2.1 + k * r.2.2.2 : ℕ) : ℚ)
    let b2 : ℚ := ((r.2.2.1 : ℕ) : ℚ) / ((r.2.2.2 : ℕ) : ℚ)
    if |b2 - x| ≤ |b1 - x| then b2 else b1

/-- Python `int(x)` on a float value: truncation toward zero. -/
def pyInt (x : ℚ) : ℤ := x.num / (x.den : ℤ)

/-- `probabilities(row)` with the source's numeric behaviour kept:
`Fraction(num).limit_denominator()` uses the default bound `10^6`, and the
scaling factor `int(lcd / den)` is the truncation of a rounded float
division. -/
def probabilitiesF (row : List ℚ) : List ℤ :=
  let fracs := row.map (limitDen 1000000)
  let nums := fracs.map Rat.num
  let dens := fracs.map Rat.den
  let lcd := dens.foldl (fun l d => l / euclid l d * d) 1
  (List.zipWith (fun n d => n * pyInt (fl ((lcd : ℚ) / (d : ℚ)))) nums dens) ++ [(lcd : ℤ)]

/-- `solution(m)` from `3.1_Doomsday_Fuel.py` with binary64 semantics: the
float-faithful counterpart of `solution`.  The integer guard is identical;
the pipeline keeps every rounding of the source. -/
def solutionF (m : List (List ℕ)) : Except String (List ℤ) :=
  if m.length ≤ 1 ∨ (m.headD []).sum = 0 then .ok [1, 1]
  else
    let rq := split_matrixF m
    match find_f_submatrixF rq.2 with
    | .error e => .error e
    | .ok f => .ok (probabilitiesF ((np_dotF f rq.1).headD []))

end Doomsday

/-- The external interface name the specification gives to `Doomsday.solution`
(§6): `absorption_fractions(matrix)`. -/
def absorption_fractions (m : List (List ℕ)) : Except String (List ℤ) :=
  Doomsday.solution m

/-- The greatest common divisor of all the integers in a list. -/
def listGcd (l : List ℤ) : ℕ :=
  l.foldr (fun a g => Int.gcd a g) 0

/-- Position of the first occurrence of a number in a list (`List.indexOf`
with a definite decidable equality), used to index the state lists. -/
def idxN : List ℕ → ℕ → ℕ
  | [], _ => 0
  | a :: l, x => if a = x then 0 else idxN l x + 1

namespace Doomsday

theorem detF_eq_det : ∀ (n : ℕ) (M : Matrix (Fin n) (Fin n) ℚ), detF n M = M.det := by
  intro n
  induction n with
  | zero => intro M; simp [detF, Matrix.det_fin_zero]
  | succ n ih =>
    intro M
    rw [Matrix.det_succ_row_zero, detF]
    exact Finset.sum_congr rfl fun j _ => by rw [ih]

theorem adjF_eq_adjugate (n : ℕ) (M : Matrix (Fin n) (Fin n) ℚ) : adjF n M = M.adjugate := by
  ext i j
  rw [adjF, Matrix.adjugate_apply, Matrix.of_apply, detF_eq_det]

end Doomsday

/-- C2: `absorption_fractions` on the two documented example matrices returns
`[0, 3, 2, 9, 14]` and `[7, 6, 8, 21]` respectively. -/
theorem C2_absorption_examples :
    absorption_fractions [[0,1,0,0,0,1],[4,0,0,3,2,0],[0,0,0,0,0,0],
      [0,0,0,0,0,0],[0,0,0,0,0,0],[0,0,0,0,0,0]] = Except.ok [0,3,2,9,14] ∧
    absorption_fractions [[0,2,1,0,0],[0,0,0,3,4],[0,0,0,0,0],[0,0,0,0,0],[0,0,0,0,0]]
      = Except.ok [7,6,8,21] := by
  constructor
  · with_unfolding_all rfl
  · with_unfolding_all rfl

/-- C4: when state 0 is terminal (its row sums to zero) or the matrix has a
single row, `absorption_fractions` returns exactly `[1, 1]`. -/
theorem C4_degenerate_start (m : List (List ℕ))
    (h : (m.headD []).sum = 0 ∨ m.length = 1) :
    absorption_fractions m = Except.ok [1, 1] := by
  unfold absorption_fractions Doomsday.solution
  rw [if_pos]
  rcases h with h | h
  · exact Or.inr h
  · exact Or.inl (by omega)

/-- Witness for C4 at the matrix `[[0,0],[1,1]]` (start state terminal). -/
theorem C4_degenerate_start_witness :
    (((([[0,0],[1,1]] : List (List ℕ)).headD []).sum = 0 ∨
        ([[0,0],[1,1]] : List (List ℕ)).length = 1) ∧
      absorption_fractions [[0,0],[1,1]] = Except.ok [1, 1]) :=
  ⟨Or.inl (by decide), C4_degenerate_start [[0,0],[1,1]] (Or.inl (by decide))⟩

/-- C5 counterexample: the matrix `[[0,0],[0,1]]` has a transient state
(state 1, whose only transition is to itself) with no path to any terminal
state, yet `absorption_fractions` raises no error at all: the degenerate
`sum(m[0]) == 0` guard returns `[1, 1]` before the chain is examined. -/
theorem C5_counterexample :
    (∃ i, i < ([[0,0],[0,1]] : List (List ℕ)).length ∧
        ¬ Doomsday.terminal [[0,0],[0,1]] i ∧
        ∀ c, Doomsday.terminal [[0,0],[0,1]] c → ¬ Doomsday.reaches [[0,0],[0,1]] i c) ∧
      absorption_fractions [[0,0],[0,1]] = Except.ok [1, 1] := by
  refine ⟨⟨1, by decide, by unfold Doomsday.terminal; decide, fun c hc hr => ?_⟩,
    by with_unfolding_all rfl⟩
  have hfix : ∀ x, Doomsday.reaches [[0,0],[0,1]] 1 x → x = 1 := by
    intro x hx
    induction hx with
    | refl => rfl
    | tail _ hstep ih =>
      subst ih
      rename_i b _
      unfold Doomsday.step at hstep
      match b, hstep with
      | 0, hstep => simp [List.getD] at hstep
      | 1, hstep => rfl
      | n+2, hstep => simp [List.getD] at hstep
  have h1 := hfix c hr
  subst h1
  exact absurd hc (by unfold Doomsday.terminal; decide)

/-- C6 counterexample: no invalid-shape rejection exists.  The empty matrix is
not rejected with an error: `absorption_fractions` returns `[1, 1]` for it,
and `ancestor_labels` accepts height `0` and returns the ordinary sentinel
list instead of signalling anything. -/
theorem C6_counterexample :
    absorption_fractions [] = Except.ok [1, 1] ∧ ancestor_labels 0 [1] = [-1] := by
  exact ⟨by with_unfolding_all rfl, by with_unfolding_all rfl⟩

/-- C7 counterexample: the out-of-range label `0` does not map to the sentinel
`-1`: at height `1` the bottom `dfs` call computes `leftNode = rightNode = 0`
and `parentNode = 1` and stores `1` for the key `0`. -/
theorem C7_counterexample :
    ancestor_labels 1 [0] = [1] ∧ ancestor_labels 1 [0] ≠ [-1] := by
  have h : ancestor_labels 1 [0] = [1] := by with_unfolding_all rfl
  exact ⟨h, by rw [h]; decide⟩

namespace IonFlux

theorem two_pow_sub_one_div_two (k : ℕ) : (2 ^ (k+1) - 1) / 2 = 2 ^ k - 1 := by
  have h1 : 1 ≤ 2 ^ k := Nat.one_le_two_pow
  rw [pow_succ]
  omega

/-- Range of `parentArith`: a stored key lies in `[o, o + 2^k - 1)` and the
stored parent is strictly larger, bounded by the subtree root `o + 2^k - 1`. -/
theorem parentArith_some :
    ∀ {k o x p : ℕ}, parentArith k o x = some p →
      o ≤ x ∧ x < o + (2 ^ k - 1) ∧ x < p ∧ p ≤ o + (2 ^ k - 1) := by
  intro k
  induction k with
  | zero => intro o x p h; simp [parentArith] at h
  | succ k ih =>
    intro o x p h
    have h1 : 1 ≤ 2 ^ k := Nat.one_le_two_pow
    have hpow : 2 ^ (k+1) = 2 * 2 ^ k := by rw [pow_succ]; ring
    rw [parentArith] at h
    by_cases hc : x = o + (2 ^ k - 1) ∨ x = o + 2 * (2 ^ k - 1)
    · rw [if_pos hc] at h
      have hp : p = o + 2 * (2 ^ k - 1) + 1 := by exact (Option.some_inj.mp h).symm
      omega
    · rw [if_neg hc] at h
      by_cases hle : x ≤ o + (2 ^ k - 1)
      · rw [if_pos hle] at h
        have := ih h
        omega
      · rw [if_neg hle] at h
        have := ih h
        omega

end IonFlux

namespace IonFlux

/-- The traversal `dfs` over a full subtree (of size `2^k - 1`) acts on the
label dictionary as a pure map: every still-unanswered key takes the value
`parentArith` computes for it (or stays `-1`), every answered key is kept. -/
theorem dfs_eq_map :
    ∀ (k o : ℕ) (d : List (ℕ × ℤ)),
      dfs (2 ^ k - 1) o d = d.map fun kv =>
        (kv.1, if kv.2 = -1 then ((parentArith k o kv.1).map Int.ofNat).getD (-1) else kv.2) := by
  intro k
  induction k with
  | zero =>
    intro o d
    rw [dfs]
    simp only [pow_zero, Nat.sub_self, Nat.zero_lt_one, if_pos]
    have hpt : ∀ kv : ℕ × ℤ,
        ((kv.1, if kv.2 = -1 then ((parentArith 0 o kv.1).map Int.ofNat).getD (-1) else kv.2)
          : ℕ × ℤ) = kv := by
      intro kv
      simp only [parentArith, Option.map_none', Option.getD_none]
      by_cases hv : kv.2 = -1
      · rw [if_pos hv, ← hv]
      · rw [if_neg hv]
    symm
    calc d.map (fun kv : ℕ × ℤ =>
            (kv.1, if kv.2 = -1 then ((parentArith 0 o kv.1).map Int.ofNat).getD (-1) else kv.2))
        = d.map id := List.map_congr_left fun kv _ => hpt kv
      _ = d := List.map_id d
  | succ k ih =>
    intro o d
    have h1 : 1 ≤ 2 ^ k := Nat.one_le_two_pow
    have hpow : 2 ^ (k + 1) = 2 * 2 ^ k := by rw [pow_succ]; ring
    have hs : ¬ (2 ^ (k+1) - 1 < 1) := by omega
    rw [dfs]
    simp only [if_neg hs, two_pow_sub_one_div_two]
    rw [ih, ih]
    unfold store
    rw [List.map_map, List.map_map, List.map_map]
    refine List.map_congr_left fun kv _ => ?_
    obtain ⟨x, v⟩ := kv
    simp only [Function.comp_apply, Prod.mk.injEq]
    refine ⟨trivial, ?_⟩
    have hpn : ((↑(o + (2 ^ k - 1) + (2 ^ k - 1) + 1) : ℤ)) ≠ -1 := by omega
    by_cases hv : v = -1
    · subst hv
      by_cases hln : x = o + (2 ^ k - 1)
      · have hcl : x = o + (2 ^ k - 1) ∧ (-1 : ℤ) = -1 := ⟨hln, rfl⟩
        rw [if_pos hcl]
        have hc2 : ¬ (x = o + (2 ^ k - 1) + (2 ^ k - 1) ∧
            ((↑(o + (2 ^ k - 1) + (2 ^ k - 1) + 1) : ℤ)) = -1) := fun hh => hpn hh.2
        rw [if_neg hc2, if_neg hpn, if_neg hpn, if_pos (rfl : (-1 : ℤ) = -1)]
        have hT : parentArith (k+1) o x = some (o + 2 * (2 ^ k - 1) + 1) := by
          simp only [parentArith]
          rw [if_pos (Or.inl hln)]
        rw [hT]
        simp only [Option.map_some', Option.getD_some, Int.ofNat_eq_coe]
        omega
      · by_cases hrn : x = o + (2 ^ k - 1) + (2 ^ k - 1)
        · have hcl : ¬ (x = o + (2 ^ k - 1) ∧ (-1 : ℤ) = -1) := fun hh => hln hh.1
          rw [if_neg hcl]
          have hc2 : x = o + (2 ^ k - 1) + (2 ^ k - 1) ∧ (-1 : ℤ) = -1 := ⟨hrn, rfl⟩
          rw [if_pos hc2, if_neg hpn, if_neg hpn, if_pos (rfl : (-1 : ℤ) = -1)]
          have hT : parentArith (k+1) o x = some (o + 2 * (2 ^ k - 1) + 1) := by
            simp only [parentArith]
            rw [if_pos (Or.inr (by omega))]
          rw [hT]
          simp only [Option.map_some', Option.getD_some, Int.ofNat_eq_coe]
          omega
        · have hcl : ¬ (x = o + (2 ^ k - 1) ∧ (-1 : ℤ) = -1) := fun hh => hln hh.1
          rw [if_neg hcl]
          have hc2 : ¬ (x = o + (2 ^ k - 1) + (2 ^ k - 1) ∧ (-1 : ℤ) = -1) := fun hh => hrn hh.1
          rw [if_neg hc2, if_pos (rfl : (-1 : ℤ) = -1), if_pos (rfl : (-1 : ℤ) = -1)]
          have hT : parentArith (k+1) o x =
              if x ≤ o + (2 ^ k - 1) then parentArith k o x
              else parentArith k (o + (2 ^ k - 1)) x := by
            simp only [parentArith]
            rw [if_neg (by omega : ¬ (x = o + (2 ^ k - 1) ∨ x = o + 2 * (2 ^ k - 1)))]
          rw [hT]
          rcases hpl : parentArith k o x with _ | p
          · simp only [Option.map_none', Option.getD_none, if_pos (rfl : (-1 : ℤ) = -1)]
            by_cases hle : x ≤ o + (2 ^ k - 1)
            · rw [if_pos hle]
              rcases hpr : parentArith k (o + (2 ^ k - 1)) x with _ | p
              · simp
              · exfalso
                have := parentArith_some hpr
                omega
            · rw [if_neg hle]
              simp
          · have hlt := parentArith_some hpl
            rw [if_pos (by omega : x ≤ o + (2 ^ k - 1))]
            simp only [Option.map_some', Option.getD_some, Int.ofNat_eq_coe]
            rw [if_neg (by omega : ¬ ((↑p : ℤ) = -1))]
    · have hcl : ¬ (x = o + (2 ^ k - 1) ∧ v = -1) := fun hh => hv hh.2
      rw [if_neg hcl]
      have hc2 : ¬ (x = o + (2 ^ k - 1) + (2 ^ k - 1) ∧ v = -1) := fun hh => hv hh.2
      rw [if_neg hc2, if_neg hv, if_neg hv, if_neg hv]

end IonFlux


namespace IonFlux

theorem mem_dedupFirst : ∀ (l : List ℕ) (y : ℕ), y ∈ dedupFirst l ↔ y ∈ l := by
  intro l
  induction l using dedupFirst.induct with
  | case1 => intro y; rw [dedupFirst]
  | case2 x xs ih =>
    intro y
    rw [dedupFirst]
    constructor
    · intro hy
      rcases List.mem_cons.mp hy with hy | hy
      · exact hy ▸ List.mem_cons_self _ _
      · rcases List.mem_filter.mp ((ih y).mp hy) with ⟨hmem, _⟩
        exact List.mem_cons_of_mem _ hmem
    · intro hy
      rcases List.mem_cons.mp hy with hy | hy
      · exact hy ▸ List.mem_cons_self _ _
      · by_cases hyx : y = x
        · exact hyx ▸ List.mem_cons_self _ _
        · refine List.mem_cons_of_mem _ ((ih y).mpr (List.mem_filter.mpr ⟨hy, ?_⟩))
          simpa using hyx

theorem dedupFirst_nodup : ∀ l : List ℕ, (dedupFirst l).Nodup := by
  intro l
  induction l using dedupFirst.induct with
  | case1 => rw [dedupFirst]; exact List.nodup_nil
  | case2 x xs ih =>
    rw [dedupFirst]
    refine List.nodup_cons.mpr ⟨?_, ih⟩
    rw [mem_dedupFirst]
    simp

/-- `solution` is the pure function `parentArith` mapped over the
first-occurrence deduplication of the query list. -/
theorem solution_eq_map (h : ℕ) (q : List ℕ) :
    solution h q = (dedupFirst q).map
      (fun x => ((parentArith h 0 x).map Int.ofNat).getD (-1)) := by
  show (dfs (2 ^ h - 1) 0 ((dedupFirst q).map (fun c => (c, (-1 : ℤ))))).map Prod.snd = _
  rw [dfs_eq_map, List.map_map, List.map_map]
  refine List.map_congr_left fun c _ => ?_
  simp

theorem dedupFirst_single (x : ℕ) : dedupFirst [x] = [x] := by
  simp [dedupFirst]

theorem solution_single (h x : ℕ) :
    solution h [x] = [((parentArith h 0 x).map Int.ofNat).getD (-1)] := by
  rw [solution_eq_map, dedupFirst_single]
  rfl

end IonFlux

/-- C9: the output of `ancestor_labels` has exactly one entry per distinct
queried label, in order of first occurrence (so with duplicated queries it is
shorter than the query list); each entry is the answer for that label. -/
theorem C9_dedup_output (h : ℕ) (q : List ℕ) :
    ancestor_labels h q
        = (IonFlux.dedupFirst q).map (fun x => (ancestor_labels h [x]).headD (-1)) ∧
      (IonFlux.dedupFirst q).Nodup := by
  refine ⟨?_, IonFlux.dedupFirst_nodup q⟩
  unfold ancestor_labels
  rw [IonFlux.solution_eq_map]
  refine List.map_congr_left fun c _ => ?_
  rw [IonFlux.solution_single]
  rfl

/-- C10: whenever `ancestor_labels` answers a query with a parent label (not
the sentinel `-1`), that label is strictly greater than the queried label:
in post-order the parent is visited after both children. -/
theorem C10_parent_greater (h x : ℕ) (p : ℤ)
    (hp : ancestor_labels h [x] = [p]) (hne : p ≠ -1) : (x : ℤ) < p := by
  unfold ancestor_labels at hp
  rw [IonFlux.solution_single] at hp
  have hval : ((IonFlux.parentArith h 0 x).map Int.ofNat).getD (-1) = p :=
    List.head_eq_of_cons_eq hp
  rcases hpa : IonFlux.parentArith h 0 x with _ | pp
  · rw [hpa] at hval
    simp at hval
    exact absurd hval.symm hne
  · rw [hpa] at hval
    simp only [Option.map_some', Option.getD_some, Int.ofNat_eq_coe] at hval
    have := IonFlux.parentArith_some hpa
    omega

/-- Witness for C10: at height 3, label 1 has parent 3 and `1 < 3`. -/
theorem C10_parent_greater_witness :
    ancestor_labels 3 [1] = [3] ∧ (3 : ℤ) ≠ -1 ∧ ((1 : ℕ) : ℤ) < 3 := by
  have h1 : ancestor_labels 3 [1] = [3] := by with_unfolding_all rfl
  exact ⟨h1, by decide, C10_parent_greater 3 1 3 h1 (by decide)⟩

namespace IonFlux

theorem idxOf_append_mem {l1 : List (List Bool)} (l2 : List (List Bool)) {p : List Bool}
    (h : p ∈ l1) : idxOf (l1 ++ l2) p = idxOf l1 p := by
  induction l1 with
  | nil => exact absurd h (List.not_mem_nil p)
  | cons a t ih =>
    rw [List.cons_append, idxOf, idxOf]
    by_cases ha : a = p
    · rw [if_pos ha, if_pos ha]
    · rw [if_neg ha, if_neg ha, ih (by
        rcases List.mem_cons.mp h with hh | hh
        · exact absurd hh.symm ha
        · exact hh)]

theorem idxOf_append_not_mem {l1 : List (List Bool)} (l2 : List (List Bool)) {p : List Bool}
    (h : p ∉ l1) : idxOf (l1 ++ l2) p = l1.length + idxOf l2 p := by
  induction l1 with
  | nil => simp [idxOf]
  | cons a t ih =>
    rw [List.cons_append, idxOf]
    have ha : a ≠ p := fun hh => h (hh ▸ List.mem_cons_self a t)
    rw [if_neg ha, ih (fun hh => h (List.mem_cons_of_mem a hh)), List.length_cons]
    omega

theorem idxOf_map_cons (l : List (List Bool)) (b : Bool) (p : List Bool) :
    idxOf (l.map (List.cons b)) (b :: p) = idxOf l p := by
  induction l with
  | nil => rfl
  | cons a t ih =>
    rw [List.map_cons, idxOf, idxOf]
    by_cases ha : a = p
    · rw [if_pos (by rw [ha]), if_pos ha]
    · rw [if_neg (fun hh => ha (by injection hh)), if_neg ha, ih]

theorem idxOf_of_getElem? {l : List (List Bool)} {i : ℕ} {p : List Bool}
    (hn : l.Nodup) (h : l[i]? = some p) : idxOf l p = i := by
  induction l generalizing i with
  | nil => simp at h
  | cons a t ih =>
    rcases i with _ | i
    · simp only [List.getElem?_cons_zero, Option.some_inj] at h
      rw [idxOf, if_pos h]
    · rw [List.getElem?_cons_succ] at h
      have hmem : p ∈ t := List.getElem?_mem h
      have hne : a ≠ p := fun hh => (List.nodup_cons.mp hn).1 (hh ▸ hmem)
      rw [idxOf, if_neg hne, ih (List.nodup_cons.mp hn).2 h]

theorem postPaths_length : ∀ h, (postPaths h).length = 2 ^ h - 1 := by
  intro h
  induction h with
  | zero => rfl
  | succ h ih =>
    have h1 : 1 ≤ 2 ^ h := Nat.one_le_two_pow
    rw [postPaths]
    simp only [List.length_append, List.length_map, ih, List.length_singleton]
    rw [pow_succ]
    omega

theorem mem_postPaths : ∀ h (p : List Bool), p ∈ postPaths h ↔ p.length < h := by
  intro h
  induction h with
  | zero => intro p; rw [postPaths]; simp
  | succ h ih =>
    intro p
    rw [postPaths]
    simp only [List.mem_append, List.mem_map, List.mem_singleton]
    constructor
    · rintro ((⟨q, hq, rfl⟩ | ⟨q, hq, rfl⟩) | rfl)
      · have := (ih q).mp hq
        simp only [List.length_cons]
        omega
      · have := (ih q).mp hq
        simp only [List.length_cons]
        omega
      · simp
    · intro hp
      rcases p with _ | ⟨b, q⟩
      · exact Or.inr rfl
      · have hq : q.length < h := by
          simp only [List.length_cons] at hp
          omega
        rcases b with _ | _
        · exact Or.inl (Or.inl ⟨q, (ih q).mpr hq, rfl⟩)
        · exact Or.inl (Or.inr ⟨q, (ih q).mpr hq, rfl⟩)

theorem postPaths_nodup : ∀ h, (postPaths h).Nodup := by
  intro h
  induction h with
  | zero => rw [postPaths]; exact List.nodup_nil
  | succ h ih =>
    rw [postPaths]
    refine List.Nodup.append (List.Nodup.append (ih.map List.cons_injective)
      (ih.map List.cons_injective) ?_) (List.nodup_singleton []) ?_
    · intro p hp1 hp2
      rcases List.mem_map.mp hp1 with ⟨q, _, rfl⟩
      rcases List.mem_map.mp hp2 with ⟨r, _, hr⟩
      exact Bool.false_ne_true (by injection hr.symm)
    · intro p hp1 hp2
      rw [List.mem_singleton] at hp2
      subst hp2
      rcases List.mem_append.mp hp1 with hp | hp
      · rcases List.mem_map.mp hp with ⟨q, _, hq⟩
        exact List.cons_ne_nil _ _ hq
      · rcases List.mem_map.mp hp with ⟨q, _, hq⟩
        exact List.cons_ne_nil _ _ hq

end IonFlux

namespace IonFlux

theorem postPaths_getElem?_left {h i : ℕ} (hi : i < 2 ^ h - 1) :
    (postPaths (h+1))[i]? = ((postPaths h)[i]?).map (List.cons false) := by
  rw [postPaths]
  rw [List.getElem?_append_left (by
      simp only [List.length_append, List.length_map, postPaths_length]
      omega),
    List.getElem?_append_left (by simp only [List.length_map, postPaths_length]; omega),
    List.getElem?_map]

theorem postPaths_getElem?_right {h i : ℕ} (h1 : 2 ^ h - 1 ≤ i) (h2 : i < 2 * (2 ^ h - 1)) :
    (postPaths (h+1))[i]? = ((postPaths h)[i - (2 ^ h - 1)]?).map (List.cons true) := by
  rw [postPaths]
  rw [List.getElem?_append_left (by
      simp only [List.length_append, List.length_map, postPaths_length]
      omega),
    List.getElem?_append_right (by simp only [List.length_map, postPaths_length]; omega),
    List.getElem?_map, List.length_map, postPaths_length]

theorem postPaths_getElem?_root (h : ℕ) :
    (postPaths (h+1))[2 * (2 ^ h - 1)]? = some ([] : List Bool) := by
  rw [postPaths]
  rw [List.getElem?_append_right (by
      simp only [List.length_append, List.length_map, postPaths_length]
      omega)]
  simp only [List.length_append, List.length_map, postPaths_length]
  have : 2 * (2 ^ h - 1) - (2 ^ h - 1 + (2 ^ h - 1)) = 0 := by omega
  rw [this]
  rfl

theorem postPaths_getElem?_none {h i : ℕ} (hi : 2 ^ h - 1 ≤ i) :
    (postPaths h)[i]? = none := by
  rw [List.getElem?_eq_none]
  rw [postPaths_length]
  exact hi

theorem postPaths_empty_pos (h : ℕ) (hh : 1 ≤ h) :
    (postPaths h)[2 ^ h - 2]? = some ([] : List Bool) := by
  rcases h with _ | h
  · omega
  · have hroot := postPaths_getElem?_root h
    have h1 : 1 ≤ 2 ^ h := Nat.one_le_two_pow
    have he : 2 * (2 ^ h - 1) = 2 ^ (h+1) - 2 := by rw [pow_succ]; omega
    rw [he] at hroot
    exact hroot

theorem parentArith_shift : ∀ k o x, parentArith k o (o + x) = (parentArith k 0 x).map (· + o) := by
  intro k
  induction k with
  | zero => intro o x; rfl
  | succ k ih =>
    intro o x
    have h1 : 1 ≤ 2 ^ k := Nat.one_le_two_pow
    simp only [parentArith]
    by_cases hc : x = 2 ^ k - 1 ∨ x = 2 * (2 ^ k - 1)
    · have hcL : o + x = o + (2 ^ k - 1) ∨ o + x = o + 2 * (2 ^ k - 1) := by omega
      have hcR : x = 0 + (2 ^ k - 1) ∨ x = 0 + 2 * (2 ^ k - 1) := by omega
      rw [if_pos hcL, if_pos hcR]
      simp only [Option.map_some']
      congr 1
      omega
    · have hcL : ¬ (o + x = o + (2 ^ k - 1) ∨ o + x = o + 2 * (2 ^ k - 1)) := by omega
      have hcR : ¬ (x = 0 + (2 ^ k - 1) ∨ x = 0 + 2 * (2 ^ k - 1)) := by omega
      rw [if_neg hcL, if_neg hcR]
      by_cases hle : x ≤ 2 ^ k - 1
      · have hleL : o + x ≤ o + (2 ^ k - 1) := by omega
        have hleR : x ≤ 0 + (2 ^ k - 1) := by omega
        rw [if_pos hleL, if_pos hleR, ih]
      · have hleL : ¬ (o + x ≤ o + (2 ^ k - 1)) := by omega
        have hleR : ¬ (x ≤ 0 + (2 ^ k - 1)) := by omega
        rw [if_neg hleL, if_neg hleR]
        have he1 : o + x = (o + (2 ^ k - 1)) + (x - (2 ^ k - 1)) := by omega
        have he2 : x = (0 + (2 ^ k - 1)) + (x - (2 ^ k - 1)) := by omega
        rw [he1, ih]
        conv_rhs => rw [he2, ih]
        rw [zero_add]
        rcases parentArith k 0 (x - (2 ^ k - 1)) with _ | z
        · rfl
        · simp only [Option.map_some']
          congr 1
          omega

theorem parentArith_zero : ∀ h : ℕ, 1 ≤ h → parentArith h 0 0 = some 1 := by
  intro h
  induction h with
  | zero => omega
  | succ h ih =>
    intro _
    rcases Nat.eq_zero_or_pos h with hz | hpos
    · subst hz
      simp only [parentArith]
      norm_num
    · have h1 : 1 ≤ 2 ^ h := Nat.one_le_two_pow
      have h2 : 2 ≤ 2 ^ h := by
        calc 2 = 2 ^ 1 := by norm_num
        _ ≤ 2 ^ h := Nat.pow_le_pow_right (by norm_num) hpos
      simp only [parentArith]
      rw [if_neg (by omega), if_pos (by omega)]
      exact ih hpos

theorem parentArith_none_of_ge {k x : ℕ} (hx : 2 ^ k - 1 ≤ x) : parentArith k 0 x = none := by
  rcases hp : parentArith k 0 x with _ | p
  · rfl
  · have := parentArith_some hp
    omega

theorem parentArith_isSome : ∀ h x : ℕ, 1 ≤ x → x < 2 ^ h - 1 →
    ∃ p, parentArith h 0 x = some p := by
  intro h
  induction h with
  | zero => intro x h1 h2; omega
  | succ h ih =>
    intro x h1 h2
    have hp1 : 1 ≤ 2 ^ h := Nat.one_le_two_pow
    have hpow : 2 ^ (h+1) = 2 * 2 ^ h := by rw [pow_succ]; ring
    simp only [parentArith]
    by_cases hc : x = 0 + (2 ^ h - 1) ∨ x = 0 + 2 * (2 ^ h - 1)
    · rw [if_pos hc]
      exact ⟨_, rfl⟩
    · rw [if_neg hc]
      by_cases hle : x ≤ 0 + (2 ^ h - 1)
      · rw [if_pos hle]
        exact ih x h1 (by omega)
      · rw [if_neg hle]
        have he : x = (0 + (2 ^ h - 1)) + (x - (2 ^ h - 1)) := by omega
        rw [he, parentArith_shift]
        rcases ih (x - (2 ^ h - 1)) (by omega) (by omega) with ⟨p, hp⟩
        rw [hp]
        exact ⟨_, rfl⟩

end IonFlux

namespace IonFlux

theorem dropLast_cons_ne_nil {a : Bool} {l : List Bool} (h : l ≠ []) :
    (a :: l).dropLast = a :: l.dropLast := by
  rcases l with _ | ⟨b, t⟩
  · exact absurd rfl h
  · exact List.dropLast_cons₂

theorem specParentLabel_of_some {h i : ℕ} {p : List Bool}
    (hp : (postPaths h)[i]? = some p) (hne : p ≠ []) :
    specParentLabel h (i + 1) = some (idxOf (postPaths h) p.dropLast + 1) := by
  unfold specParentLabel
  simp only [Nat.add_sub_cancel]
  split <;> simp_all

theorem specParentLabel_of_none {h i : ℕ}
    (hp : (postPaths h)[i]? = none) :
    specParentLabel h (i + 1) = none := by
  unfold specParentLabel
  simp only [Nat.add_sub_cancel]
  split <;> simp_all

theorem specParentLabel_of_root {h i : ℕ}
    (hp : (postPaths h)[i]? = some []) :
    specParentLabel h (i + 1) = none := by
  unfold specParentLabel
  simp only [Nat.add_sub_cancel]
  split <;> simp_all

end IonFlux

namespace IonFlux

theorem idxOf_postPaths_nil (h : ℕ) :
    idxOf (postPaths (h+1)) [] = 2 * (2 ^ h - 1) := by
  rw [postPaths]
  rw [idxOf_append_not_mem _ (fun hmem => by
      rcases List.mem_append.mp hmem with hm | hm
      · rcases List.mem_map.mp hm with ⟨q, _, hq⟩
        exact List.cons_ne_nil _ _ hq
      · rcases List.mem_map.mp hm with ⟨q, _, hq⟩
        exact List.cons_ne_nil _ _ hq)]
  rw [idxOf, if_pos rfl]
  simp only [List.length_append, List.length_map, postPaths_length]
  omega

/-- The spec-side parent function agrees with the arithmetic parent function
realised by `dfs`, on every label of the tree. -/
theorem specParent_eq_parentArith : ∀ h x, 1 ≤ x → x ≤ 2 ^ h - 1 →
    specParentLabel h x = parentArith h 0 x := by
  intro h
  induction h with
  | zero =>
    intro x h1 h2
    norm_num at h2
    omega
  | succ h ih =>
    intro x h1 h2
    have hp1 : 1 ≤ 2 ^ h := Nat.one_le_two_pow
    have hpow : 2 ^ (h + 1) = 2 * 2 ^ h := by rw [pow_succ]; ring
    obtain ⟨i, rfl⟩ : ∃ i, x = i + 1 := ⟨x - 1, by omega⟩
    have hLlen : (postPaths h).length = 2 ^ h - 1 := postPaths_length h
    by_cases hA : i < 2 ^ h - 1
    · -- the label lies in the left-subtree block
      have hh1 : 1 ≤ h := by
        by_contra hh
        have hz : h = 0 := by omega
        subst hz
        norm_num at hA
      have h2h : 2 ≤ 2 ^ h := by
        calc 2 = 2 ^ 1 := by norm_num
          _ ≤ 2 ^ h := Nat.pow_le_pow_right (by norm_num) hh1
      have hgetL := postPaths_getElem?_left (h := h) hA
      rcases hp0 : (postPaths h)[i]? with _ | p0
      · rw [List.getElem?_eq_none_iff] at hp0
        omega
      · have hp0mem : p0 ∈ postPaths h := List.getElem?_mem hp0
        have hbig : (postPaths (h+1))[i]? = some (false :: p0) := by
          rw [hgetL, hp0]
          rfl
        by_cases hp0e : p0 = []
        · -- the root of the left subtree: its parent is the global root
          subst hp0e
          have hipos : i = 2 ^ h - 2 :=
            List.getElem?_inj (by omega) (postPaths_nodup h)
              (hp0.trans (postPaths_empty_pos h hh1).symm)
          have hspec : specParentLabel (h+1) (i+1)
              = some (idxOf (postPaths (h+1)) [] + 1) := by
            have hs := specParentLabel_of_some hbig (by simp)
            simpa using hs
          rw [hspec, idxOf_postPaths_nil]
          have hT : parentArith (h+1) 0 (i+1) = some (0 + 2 * (2 ^ h - 1) + 1) := by
            simp only [parentArith]
            rw [if_pos (Or.inl (by omega))]
          rw [hT]
          congr 1
          omega
        · -- interior left-subtree label: same answer as in the height-h tree
          have hq : p0.dropLast ∈ postPaths h := by
            rw [mem_postPaths]
            have hlt := (mem_postPaths h p0).mp hp0mem
            have hld := List.length_dropLast p0
            omega
          have hdl : (false :: p0).dropLast = false :: p0.dropLast :=
            dropLast_cons_ne_nil hp0e
          have hspec1 : specParentLabel (h+1) (i+1)
              = some (idxOf (postPaths (h+1)) (false :: p0.dropLast) + 1) := by
            have hs := specParentLabel_of_some hbig (by simp)
            rw [hdl] at hs
            exact hs
          have hidx : idxOf (postPaths (h+1)) (false :: p0.dropLast)
              = idxOf (postPaths h) p0.dropLast := by
            rw [postPaths]
            rw [idxOf_append_mem _ (List.mem_append.mpr
              (Or.inl (List.mem_map_of_mem _ hq)))]
            rw [idxOf_append_mem _ (List.mem_map_of_mem _ hq)]
            exact idxOf_map_cons _ _ _
          have hspec2 : specParentLabel h (i+1)
              = some (idxOf (postPaths h) p0.dropLast + 1) :=
            specParentLabel_of_some hp0 hp0e
          have hxneq : i + 1 ≠ 2 ^ h - 1 := by
            intro hcon
            have hieq : i = 2 ^ h - 2 := by omega
            have hsome : (postPaths h)[i]? = some [] := by
              rw [hieq]
              exact postPaths_empty_pos h hh1
            rw [hp0] at hsome
            exact hp0e (Option.some_inj.mp hsome)
          have hT : parentArith (h+1) 0 (i+1) = parentArith h 0 (i+1) := by
            simp only [parentArith]
            rw [if_neg (by omega), if_pos (by omega)]
          rw [hspec1, hidx, ← hspec2, hT]
          exact ih (i+1) (by omega) (by omega)
    · -- the right-subtree block or the root
      by_cases hroot : i = 2 * (2 ^ h - 1)
      · -- the global root has no parent
        subst hroot
        have hbig := postPaths_getElem?_root h
        rw [specParentLabel_of_root hbig]
        have hT : parentArith (h+1) 0 (2 * (2 ^ h - 1) + 1)
            = parentArith h (0 + (2 ^ h - 1)) (2 * (2 ^ h - 1) + 1) := by
          simp only [parentArith]
          rw [if_neg (by omega), if_neg (by omega)]
        rw [hT]
        have he : 2 * (2 ^ h - 1) + 1 = (0 + (2 ^ h - 1)) + ((2 ^ h - 1) + 1) := by omega
        rw [he, parentArith_shift, parentArith_none_of_ge (by omega)]
        rfl
      · -- strict right-subtree label
        have hB1 : 2 ^ h - 1 ≤ i := by omega
        have hB2 : i < 2 * (2 ^ h - 1) := by omega
        have hh1 : 1 ≤ h := by
          by_contra hh
          have hz : h = 0 := by omega
          subst hz
          norm_num at hB2
        have h2h : 2 ≤ 2 ^ h := by
          calc 2 = 2 ^ 1 := by norm_num
            _ ≤ 2 ^ h := Nat.pow_le_pow_right (by norm_num) hh1
        have hgetR := postPaths_getElem?_right hB1 hB2
        rcases hp0 : (postPaths h)[i - (2 ^ h - 1)]? with _ | p0
        · rw [List.getElem?_eq_none_iff] at hp0
          omega
        · have hp0mem : p0 ∈ postPaths h := List.getElem?_mem hp0
          have hbig : (postPaths (h+1))[i]? = some (true :: p0) := by
            rw [hgetR, hp0]
            rfl
          by_cases hp0e : p0 = []
          · -- the root of the right subtree: its parent is the global root
            subst hp0e
            have hipos : i - (2 ^ h - 1) = 2 ^ h - 2 :=
              List.getElem?_inj (by omega) (postPaths_nodup h)
                (hp0.trans (postPaths_empty_pos h hh1).symm)
            have hspec : specParentLabel (h+1) (i+1)
                = some (idxOf (postPaths (h+1)) [] + 1) := by
              have hs := specParentLabel_of_some hbig (by simp)
              simpa using hs
            rw [hspec, idxOf_postPaths_nil]
            have hT : parentArith (h+1) 0 (i+1) = some (0 + 2 * (2 ^ h - 1) + 1) := by
              simp only [parentArith]
              rw [if_pos (Or.inr (by omega))]
            rw [hT]
            congr 1
            omega
          · -- interior right-subtree label: shift of the height-h answer
            have hq : p0.dropLast ∈ postPaths h := by
              rw [mem_postPaths]
              have hlt := (mem_postPaths h p0).mp hp0mem
              have hld := List.length_dropLast p0
              omega
            have hdl : (true :: p0).dropLast = true :: p0.dropLast :=
              dropLast_cons_ne_nil hp0e
            have hspec1 : specParentLabel (h+1) (i+1)
                = some (idxOf (postPaths (h+1)) (true :: p0.dropLast) + 1) := by
              have hs := specParentLabel_of_some hbig (by simp)
              rw [hdl] at hs
              exact hs
            have hidx : idxOf (postPaths (h+1)) (true :: p0.dropLast)
                = (2 ^ h - 1) + idxOf (postPaths h) p0.dropLast := by
              rw [postPaths]
              rw [idxOf_append_mem _ (List.mem_append.mpr
                (Or.inr (List.mem_map_of_mem _ hq)))]
              rw [idxOf_append_not_mem _ (by
                  intro hmem
                  rcases List.mem_map.mp hmem with ⟨q', _, hq'⟩
                  exact Bool.false_ne_true (by injection hq'))]
              rw [List.length_map, postPaths_length, idxOf_map_cons]
            have hspec2 : specParentLabel h (i - (2 ^ h - 1) + 1)
                = some (idxOf (postPaths h) p0.dropLast + 1) :=
              specParentLabel_of_some hp0 hp0e
            have hnot2 : i + 1 ≠ 2 * (2 ^ h - 1) := by
              intro hcon
              have hieq : i - (2 ^ h - 1) = 2 ^ h - 2 := by omega
              have hsome : (postPaths h)[i - (2 ^ h - 1)]? = some [] := by
                rw [hieq]
                exact postPaths_empty_pos h hh1
              rw [hp0] at hsome
              exact hp0e (Option.some_inj.mp hsome)
            have hT : parentArith (h+1) 0 (i+1)
                = parentArith h (0 + (2 ^ h - 1)) (i+1) := by
              simp only [parentArith]
              rw [if_neg (by omega), if_neg (by omega)]
            have he : i + 1 = (0 + (2 ^ h - 1)) + (i - (2 ^ h - 1) + 1) := by omega
            rw [hspec1, hidx, hT, he, parentArith_shift]
            rw [← ih (i - (2 ^ h - 1) + 1) (by omega) (by omega)]
            rw [hspec2]
            simp only [Option.map_some']
            congr 1
            omega

end IonFlux

namespace IonFlux

theorem idxOf_lt_length {l : List (List Bool)} {p : List Bool} (h : p ∈ l) :
    idxOf l p < l.length := by
  induction l with
  | nil => exact absurd h (List.not_mem_nil p)
  | cons a t ih =>
    rw [idxOf]
    by_cases ha : a = p
    · rw [if_pos ha]
      simp
    · rw [if_neg ha, List.length_cons]
      have hmem : p ∈ t := by
        rcases List.mem_cons.mp h with hh | hh
        · exact absurd hh.symm ha
        · exact hh
      exact Nat.succ_lt_succ (ih hmem)

theorem getElem?_idxOf {l : List (List Bool)} {p : List Bool} (h : p ∈ l) :
    l[idxOf l p]? = some p := by
  induction l with
  | nil => exact absurd h (List.not_mem_nil p)
  | cons a t ih =>
    rw [idxOf]
    by_cases ha : a = p
    · rw [if_pos ha, ha]
      simp
    · rw [if_neg ha, List.getElem?_cons_succ]
      refine ih ?_
      rcases List.mem_cons.mp h with hh | hh
      · exact absurd hh.symm ha
      · exact hh

theorem siblingLabel_of_some {h i : ℕ} {p : List Bool}
    (hp : (postPaths h)[i]? = some p) (hne : p ≠ []) :
    siblingLabel h (i + 1)
      = some (idxOf (postPaths h) (p.dropLast ++ [! p.getLastD false]) + 1) := by
  unfold siblingLabel
  simp only [Nat.add_sub_cancel]
  split <;> simp_all

end IonFlux

/-- C7 (amended): for every height `h ≥ 1`: a label in `[1, 2^h - 1]` other
than the root is answered with the post-order label of its parent; the root
`2^h - 1` and every label above the range are answered with the sentinel
`-1`; but the out-of-range label `0` is answered with `1` instead of the
sentinel. -/
theorem C7_amended_parent_contract (h x : ℕ) (hh : 1 ≤ h) :
    (1 ≤ x → x < 2 ^ h - 1 →
        ∃ p, IonFlux.specParentLabel h x = some p ∧ ancestor_labels h [x] = [(p : ℤ)]) ∧
      ((x = 2 ^ h - 1 ∨ 2 ^ h - 1 < x) → ancestor_labels h [x] = [-1]) ∧
      (x = 0 → ancestor_labels h [x] = [1]) := by
  refine ⟨fun h1 h2 => ?_, fun hout => ?_, fun hzero => ?_⟩
  · rcases IonFlux.parentArith_isSome h x h1 h2 with ⟨p, hp⟩
    refine ⟨p, ?_, ?_⟩
    · rw [IonFlux.specParent_eq_parentArith h x h1 (by omega), hp]
    · unfold ancestor_labels
      rw [IonFlux.solution_single, hp]
      rfl
  · unfold ancestor_labels
    rw [IonFlux.solution_single, IonFlux.parentArith_none_of_ge (by omega)]
    rfl
  · subst hzero
    unfold ancestor_labels
    rw [IonFlux.solution_single, IonFlux.parentArith_zero h hh]
    rfl

/-- Witness for C7 (amended) at height 3: label 4 has parent 6 (also the
spec-side parent), the root 7 and the out-of-range 9 give `-1`, label 0
gives `1`. -/
theorem C7_amended_parent_contract_witness :
    (1 ≤ (4:ℕ) ∧ (4:ℕ) < 2 ^ 3 - 1 ∧
      ∃ p, IonFlux.specParentLabel 3 4 = some p ∧ ancestor_labels 3 [4] = [(p : ℤ)]) ∧
      ancestor_labels 3 [7] = [-1] ∧ ancestor_labels 3 [9] = [-1] ∧
      ancestor_labels 3 [0] = [1] := by
  refine ⟨⟨by decide, by decide, (C7_amended_parent_contract 3 4 (by decide)).1
      (by decide) (by decide)⟩, ?_, ?_, ?_⟩
  · exact (C7_amended_parent_contract 3 7 (by decide)).2.1 (Or.inl (by decide))
  · exact (C7_amended_parent_contract 3 9 (by decide)).2.1 (Or.inr (by decide))
  · exact (C7_amended_parent_contract 3 0 (by decide)).2.2 rfl

/-- C8: sibling symmetry.  For a valid height and a non-root label in range,
the other child of the computed parent is a different in-range label whose
query yields the same parent. -/
theorem C8_sibling_symmetry (h x : ℕ) (hh : 1 ≤ h) (hx1 : 1 ≤ x) (hx2 : x < 2 ^ h - 1) :
    ∃ y, IonFlux.siblingLabel h x = some y ∧ y ≠ x ∧ 1 ≤ y ∧ y ≤ 2 ^ h - 1 ∧
      ancestor_labels h [y] = ancestor_labels h [x] ∧ ancestor_labels h [x] ≠ [-1] := by
  obtain ⟨i, rfl⟩ : ∃ i, x = i + 1 := ⟨x - 1, by omega⟩
  have hLlen : (IonFlux.postPaths h).length = 2 ^ h - 1 := IonFlux.postPaths_length h
  rcases hp : (IonFlux.postPaths h)[i]? with _ | p
  · rw [List.getElem?_eq_none_iff] at hp
    omega
  · have hpmem : p ∈ IonFlux.postPaths h := List.getElem?_mem hp
    have hh2 : 2 ≤ 2 ^ h := by
      calc 2 = 2 ^ 1 := by norm_num
        _ ≤ 2 ^ h := Nat.pow_le_pow_right (by norm_num) hh
    have hpne : p ≠ [] := by
      intro hcon
      subst hcon
      have hipos : i = 2 ^ h - 2 :=
        List.getElem?_inj (by omega) (IonFlux.postPaths_nodup h)
          (hp.trans (IonFlux.postPaths_empty_pos h hh).symm)
      omega
    obtain ⟨l0, b, rfl⟩ : ∃ l0 b, p = l0 ++ [b] := by
      rcases List.eq_nil_or_concat p with hcon | ⟨l0, b, hcat⟩
      · exact absurd hcon hpne
      · exact ⟨l0, b, by simpa [List.concat_eq_append] using hcat⟩
    have hdrop : (l0 ++ [b]).dropLast = l0 := by simp
    have hlast : (l0 ++ [b]).getLastD false = b := by simp
    set q : List Bool := l0 ++ [! b] with hqdef
    have hqlen : q.length = (l0 ++ [b]).length := by simp [hqdef]
    have hqmem : q ∈ IonFlux.postPaths h := by
      rw [IonFlux.mem_postPaths]
      rw [hqlen]
      exact (IonFlux.mem_postPaths h _).mp hpmem
    have hqne : q ≠ l0 ++ [b] := by
      intro hcon
      have hb : (!b) = b := by
        have := List.append_inj_right hcon (by rfl)
        injection this
      simp at hb
    have hsib : IonFlux.siblingLabel h (i + 1)
        = some (IonFlux.idxOf (IonFlux.postPaths h) q + 1) := by
      have hs := IonFlux.siblingLabel_of_some hp hpne
      rw [hdrop, hlast] at hs
      exact hs
    set j : ℕ := IonFlux.idxOf (IonFlux.postPaths h) q with hjdef
    have hqat : (IonFlux.postPaths h)[j]? = some q := IonFlux.getElem?_idxOf hqmem
    have hjlt : j < 2 ^ h - 1 := by
      have := IonFlux.idxOf_lt_length hqmem
      omega
    have hji : j ≠ i := by
      intro hcon
      rw [hcon, hp] at hqat
      exact hqne (Option.some_inj.mp hqat).symm
    have hqne2 : q ≠ [] := by simp [hqdef]
    have hspecy : IonFlux.specParentLabel h (j + 1)
        = some (IonFlux.idxOf (IonFlux.postPaths h) l0 + 1) := by
      have hs := IonFlux.specParentLabel_of_some hqat hqne2
      have hdq : q.dropLast = l0 := by simp [hqdef]
      rw [hdq] at hs
      exact hs
    have hspecx : IonFlux.specParentLabel h (i + 1)
        = some (IonFlux.idxOf (IonFlux.postPaths h) l0 + 1) := by
      have hs := IonFlux.specParentLabel_of_some hp hpne
      rw [hdrop] at hs
      exact hs
    have hax : ancestor_labels h [i + 1]
        = [((IonFlux.idxOf (IonFlux.postPaths h) l0 + 1 : ℕ) : ℤ)] := by
      unfold ancestor_labels
      rw [IonFlux.solution_single,
        ← IonFlux.specParent_eq_parentArith h (i+1) (by omega) (by omega), hspecx]
      rfl
    have hay : ancestor_labels h [j + 1]
        = [((IonFlux.idxOf (IonFlux.postPaths h) l0 + 1 : ℕ) : ℤ)] := by
      unfold ancestor_labels
      rw [IonFlux.solution_single,
        ← IonFlux.specParent_eq_parentArith h (j+1) (by omega) (by omega), hspecy]
      rfl
    refine ⟨j + 1, hsib, by omega, by omega, by omega, ?_, ?_⟩
    · rw [hax, hay]
    · rw [hax]
      intro hcon
      have : ((IonFlux.idxOf (IonFlux.postPaths h) l0 + 1 : ℕ) : ℤ) = -1 :=
        List.head_eq_of_cons_eq hcon
      omega

/-- Witness for C8 at height 3, label 4: the sibling is 5 and both have
parent 6. -/
theorem C8_sibling_symmetry_witness :
    1 ≤ (3:ℕ) ∧ 1 ≤ (4:ℕ) ∧ (4:ℕ) < 2 ^ 3 - 1 ∧
      ∃ y, IonFlux.siblingLabel 3 4 = some y ∧ y ≠ 4 ∧ 1 ≤ y ∧ y ≤ 2 ^ 3 - 1 ∧
        ancestor_labels 3 [y] = ancestor_labels 3 [4] ∧ ancestor_labels 3 [4] ≠ [-1] :=
  ⟨by decide, by decide, by decide, C8_sibling_symmetry 3 4 (by decide) (by decide) (by decide)⟩

/-- C6 (amended): no invalid-shape validation is performed.  The empty matrix
takes the degenerate guard and returns `[1, 1]`; a non-square matrix is
processed without any rejection (here `[[1,2,3],[0,0,0]]`, whose third column
is simply never read, yields `[2, 5]`); and `ancestor_labels` accepts height
`0`, answering every distinct query with the sentinel `-1`. -/
theorem C6_amended_no_validation :
    absorption_fractions [] = Except.ok [1, 1] ∧
      absorption_fractions [[1,2,3],[0,0,0]] = Except.ok [2, 5] ∧
      ∀ q : List ℕ, ancestor_labels 0 q = (IonFlux.dedupFirst q).map (fun _ => (-1 : ℤ)) := by
  refine ⟨by with_unfolding_all rfl, by with_unfolding_all rfl, fun q => ?_⟩
  unfold ancestor_labels
  rw [IonFlux.solution_eq_map]
  exact List.map_congr_left fun c _ => rfl

namespace Doomsday

theorem euclid_eq_gcd (a b : ℕ) : euclid a b = Nat.gcd a b := Nat.gcd_comm b a

theorem div_mul_of_dvd {m k : ℕ} (n : ℕ) (h : k ∣ m) : m / k * n = m * n / k := by
  obtain ⟨c, rfl⟩ := h
  rcases Nat.eq_zero_or_pos k with hz | hk
  · subst hz
    simp
  · rw [Nat.mul_div_cancel_left c hk, Nat.mul_assoc, Nat.mul_div_cancel_left _ hk]

theorem lcm_step (l d : ℕ) : l / euclid l d * d = Nat.lcm l d := by
  rw [euclid_eq_gcd, Nat.lcm, div_mul_of_dvd d (Nat.gcd_dvd_left l d)]

theorem foldl_euclid_eq_foldl_lcm (ds : List ℕ) :
    ∀ a : ℕ, ds.foldl (fun l d => l / euclid l d * d) a = ds.foldl Nat.lcm a := by
  induction ds with
  | nil => intro a; rfl
  | cons d t ih =>
    intro a
    rw [List.foldl_cons, List.foldl_cons, lcm_step, ih]

theorem dvd_foldl_lcm_init (ds : List ℕ) : ∀ a : ℕ, a ∣ ds.foldl Nat.lcm a := by
  induction ds with
  | nil => intro a; exact dvd_rfl
  | cons d t ih =>
    intro a
    rw [List.foldl_cons]
    exact dvd_trans (Nat.dvd_lcm_left a d) (ih (Nat.lcm a d))

theorem dvd_foldl_lcm_mem (ds : List ℕ) :
    ∀ (a d : ℕ), d ∈ ds → d ∣ ds.foldl Nat.lcm a := by
  induction ds with
  | nil => intro a d hd; exact absurd hd (List.not_mem_nil d)
  | cons e t ih =>
    intro a d hd
    rw [List.foldl_cons]
    rcases List.mem_cons.mp hd with hh | hh
    · subst hh
      exact dvd_trans (Nat.dvd_lcm_right a d) (dvd_foldl_lcm_init t (Nat.lcm a d))
    · exact ih _ d hh

theorem foldl_lcm_dvd (ds : List ℕ) :
    ∀ (a c : ℕ), a ∣ c → (∀ d ∈ ds, d ∣ c) → ds.foldl Nat.lcm a ∣ c := by
  induction ds with
  | nil => intro a c ha _; exact ha
  | cons e t ih =>
    intro a c ha hds
    rw [List.foldl_cons]
    refine ih _ c (Nat.lcm_dvd ha (hds e (List.mem_cons_self e t))) fun d hd =>
      hds d (List.mem_cons_of_mem e hd)

theorem foldl_lcm_pos (ds : List ℕ) :
    ∀ a : ℕ, 0 < a → (∀ d ∈ ds, 0 < d) → 0 < ds.foldl Nat.lcm a := by
  induction ds with
  | nil => intro a ha _; exact ha
  | cons e t ih =>
    intro a ha hds
    rw [List.foldl_cons]
    refine ih _ (Nat.pos_of_ne_zero (Nat.lcm_ne_zero (by omega)
      (by have := hds e (List.mem_cons_self e t); omega))) fun d hd =>
      hds d (List.mem_cons_of_mem e hd)

theorem zipWith_map_same {α β γ δ : Type} (f : β → γ → δ) (g : α → β) (h : α → γ) :
    ∀ l : List α, List.zipWith f (l.map g) (l.map h) = l.map fun x => f (g x) (h x) := by
  intro l
  induction l with
  | nil => rfl
  | cons a t ih => simp only [List.map_cons, List.zipWith_cons_cons, ih]

theorem probabilities_eq (row : List ℚ) :
    probabilities row = (row.map fun q =>
        q.num * (((row.map Rat.den).foldl Nat.lcm 1 / q.den : ℕ) : ℤ))
      ++ [(((row.map Rat.den).foldl Nat.lcm 1 : ℕ) : ℤ)] := by
  show (List.zipWith
      (fun n d => n * ((((row.map Rat.den).foldl (fun l d => l / euclid l d * d) 1) / d : ℕ) : ℤ))
      (row.map Rat.num) (row.map Rat.den))
      ++ [((((row.map Rat.den).foldl (fun l d => l / euclid l d * d) 1) : ℕ) : ℤ)] = _
  rw [foldl_euclid_eq_foldl_lcm, zipWith_map_same]

theorem probabilities_length (row : List ℚ) :
    (probabilities row).length = row.length + 1 := by
  rw [probabilities_eq]
  simp

theorem lcd_pos (row : List ℚ) : 0 < (row.map Rat.den).foldl Nat.lcm 1 :=
  foldl_lcm_pos _ 1 (by norm_num) fun d hd => by
    rcases List.mem_map.mp hd with ⟨q, _, rfl⟩
    exact q.den_pos

theorem den_dvd_lcd {row : List ℚ} {q : ℚ} (hq : q ∈ row) :
    q.den ∣ (row.map Rat.den).foldl Nat.lcm 1 :=
  dvd_foldl_lcm_mem _ 1 q.den (List.mem_map_of_mem Rat.den hq)

/-- If the entries of the row sum to 1, the emitted numerators sum to the
emitted denominator. -/
theorem probabilities_sum {row : List ℚ} (hsum : row.sum = 1) :
    ∃ (Ns : List ℤ) (L : ℕ), probabilities row = Ns ++ [(L : ℤ)] ∧ Ns.sum = (L : ℤ) ∧ 0 < L := by
  refine ⟨row.map fun q => q.num * ((((row.map Rat.den).foldl Nat.lcm 1) / q.den : ℕ) : ℤ),
    (row.map Rat.den).foldl Nat.lcm 1, probabilities_eq row, ?_, lcd_pos row⟩
  have hent : ∀ q ∈ row,
      ((fun x : ℤ => (x : ℚ)) ∘ fun q : ℚ =>
          q.num * ((((row.map Rat.den).foldl Nat.lcm 1) / q.den : ℕ) : ℤ)) q
        = q * (((row.map Rat.den).foldl Nat.lcm 1 : ℕ) : ℚ) := by
    intro q hq
    have hdvd := den_dvd_lcd hq
    have hden : ((q.den : ℚ)) ≠ 0 := by
      have := q.den_pos
      positivity
    simp only [Function.comp_apply]
    rw [Int.cast_mul, Int.cast_natCast, Nat.cast_div hdvd hden]
    conv_rhs => rw [← Rat.num_div_den q]
    ring
  have hcast : (((row.map fun q =>
      q.num * ((((row.map Rat.den).foldl Nat.lcm 1) / q.den : ℕ) : ℤ)).sum : ℤ) : ℚ)
      = (((row.map Rat.den).foldl Nat.lcm 1 : ℕ) : ℚ) := by
    rw [Int.cast_list_sum, List.map_map, List.map_congr_left hent, List.sum_map_mul_right,
      List.map_id' row, hsum, one_mul]
  exact_mod_cast hcast

end Doomsday

namespace Doomsday

theorem int_gcd_natCast (a : ℤ) (g : ℕ) : Int.gcd a (g : ℤ) = Nat.gcd a.natAbs g := by
  rw [Int.gcd]
  simp

theorem foldr_gcd_dvd_init (l : List ℤ) (n : ℕ) :
    (l.foldr (fun a g => Int.gcd a g) n) ∣ n := by
  induction l with
  | nil => exact dvd_rfl
  | cons a t ih =>
    rw [List.foldr_cons, int_gcd_natCast]
    exact dvd_trans (Nat.gcd_dvd_right _ _) ih

theorem foldr_gcd_dvd_mem (l : List ℤ) (n : ℕ) (a : ℤ) (ha : a ∈ l) :
    (l.foldr (fun a g => Int.gcd a g) n) ∣ a.natAbs := by
  induction l with
  | nil => exact absurd ha (List.not_mem_nil a)
  | cons b t ih =>
    rw [List.foldr_cons, int_gcd_natCast]
    rcases List.mem_cons.mp ha with hh | hh
    · subst hh
      exact Nat.gcd_dvd_left _ _
    · exact dvd_trans (Nat.gcd_dvd_right _ _) (ih hh)

theorem listGcd_append_singleton (Ns : List ℤ) (L : ℕ) :
    listGcd (Ns ++ [(L : ℤ)]) = Ns.foldr (fun a g => Int.gcd a g) L := by
  unfold listGcd
  rw [List.foldr_append]
  norm_num [int_gcd_natCast]

/-- The full output of `probabilities` is globally reduced: the gcd of all the
scaled numerators together with the common denominator is 1. -/
theorem probabilities_gcd (row : List ℚ) : listGcd (probabilities row) = 1 := by
  rw [probabilities_eq, listGcd_append_singleton]
  by_contra hne
  obtain ⟨p, hp, hpG⟩ := Nat.exists_prime_and_dvd hne
  have hGL : ((row.map fun q =>
      q.num * ((((row.map Rat.den).foldl Nat.lcm 1) / q.den : ℕ) : ℤ)).foldr
        (fun a g => Int.gcd a g) ((row.map Rat.den).foldl Nat.lcm 1))
      ∣ (row.map Rat.den).foldl Nat.lcm 1 := foldr_gcd_dvd_init _ _
  have hpL : p ∣ (row.map Rat.den).foldl Nat.lcm 1 := hpG.trans hGL
  have hLpos : 0 < (row.map Rat.den).foldl Nat.lcm 1 := lcd_pos row
  have hple : p ≤ (row.map Rat.den).foldl Nat.lcm 1 := Nat.le_of_dvd hLpos hpL
  have hdivall : ∀ q ∈ row, q.den ∣ ((row.map Rat.den).foldl Nat.lcm 1) / p := by
    intro q hq
    have hdvd : q.den ∣ (row.map Rat.den).foldl Nat.lcm 1 := den_dvd_lcd hq
    have hmem : q.num * ((((row.map Rat.den).foldl Nat.lcm 1) / q.den : ℕ) : ℤ)
        ∈ row.map fun q => q.num * ((((row.map Rat.den).foldl Nat.lcm 1) / q.den : ℕ) : ℤ) :=
      List.mem_map_of_mem _ hq
    have hpN : p ∣ (q.num * ((((row.map Rat.den).foldl Nat.lcm 1) / q.den : ℕ) : ℤ)).natAbs :=
      hpG.trans (foldr_gcd_dvd_mem _ _ _ hmem)
    rw [Int.natAbs_mul] at hpN
    rcases (Nat.Prime.dvd_mul hp).mp hpN with hnum | hquo
    · have hpd : ¬ p ∣ q.den := by
        intro hpd
        have hone : p ∣ 1 := by
          have hco : Nat.gcd q.num.natAbs q.den = 1 := q.reduced
          exact hco ▸ Nat.dvd_gcd hnum hpd
        have hp1 : p = 1 := Nat.dvd_one.mp hone
        have := Nat.Prime.one_lt hp
        omega
      have hcop : Nat.Coprime p q.den := (Nat.Prime.coprime_iff_not_dvd hp).mpr hpd
      rw [Nat.dvd_div_iff_mul_dvd hpL]
      exact Nat.Coprime.mul_dvd_of_dvd_of_dvd hcop hpL hdvd
    · have hq2 : p ∣ ((row.map Rat.den).foldl Nat.lcm 1) / q.den := by
        simpa using hquo
      rw [Nat.dvd_div_iff_mul_dvd hpL]
      obtain ⟨t, ht⟩ := hq2
      exact ⟨t, by rw [← Nat.div_mul_cancel hdvd, ht]; ring⟩
  have hLdvd : (row.map Rat.den).foldl Nat.lcm 1
      ∣ ((row.map Rat.den).foldl Nat.lcm 1) / p := by
    refine foldl_lcm_dvd _ 1 _ (Nat.one_dvd _) fun d hd => ?_
    rcases List.mem_map.mp hd with ⟨q, hq, rfl⟩
    exact hdivall q hq
  have hlt : ((row.map Rat.den).foldl Nat.lcm 1) / p
      < (row.map Rat.den).foldl Nat.lcm 1 :=
    Nat.div_lt_self hLpos hp.one_lt
  have hpos2 : 0 < ((row.map Rat.den).foldl Nat.lcm 1) / p :=
    Nat.div_pos hple (by have := hp.one_lt; omega)
  have hle2 := Nat.le_of_dvd hpos2 hLdvd
  exact Nat.lt_irrefl _ (Nat.lt_of_le_of_lt hle2 hlt)

end Doomsday

namespace Doomsday

/-- Max-principle: a substochastic matrix whose every state can reach (along
nonzero entries) a row with sum strictly below 1 has `1 - Q` nonsingular. -/
theorem det_one_sub_ne_zero {t : ℕ} (Q : Matrix (Fin t) (Fin t) ℚ)
    (hnn : ∀ i j, 0 ≤ Q i j) (hrow : ∀ i, ∑ j, Q i j ≤ 1)
    (habs : ∀ i, ∃ j, Relation.ReflTransGen (fun a b => Q a b ≠ 0) i j ∧ ∑ k, Q j k < 1) :
    (1 - Q).det ≠ 0 := by
  rcases Nat.eq_zero_or_pos t with ht | ht
  · subst ht
    rw [Matrix.det_fin_zero]
    norm_num
  · intro hdet
    obtain ⟨v, hvne, hv⟩ := Matrix.exists_mulVec_eq_zero_iff.mpr hdet
    have hfix : ∀ i, v i = ∑ j, Q i j * v j := by
      intro i
      have h0 : (1 - Q).mulVec v i = 0 := congrFun hv i
      rw [Matrix.sub_mulVec] at h0
      have h1 : (1 : Matrix (Fin t) (Fin t) ℚ).mulVec v i - Q.mulVec v i = 0 := h0
      rw [Matrix.one_mulVec] at h1
      have h2 : Q.mulVec v i = ∑ j, Q i j * v j := by
        simp [Matrix.mulVec, Matrix.dotProduct]
      rw [h2] at h1
      linarith
    obtain ⟨i0, _, hmax⟩ := Finset.exists_max_image Finset.univ (fun i => |v i|)
      ⟨⟨0, ht⟩, Finset.mem_univ _⟩
    have hmax' : ∀ i, |v i| ≤ |v i0| := fun i => hmax i (Finset.mem_univ i)
    have hMpos : 0 < |v i0| := by
      rcases Function.ne_iff.mp hvne with ⟨k, hk⟩
      have hk2 : 0 < |v k| := abs_pos.mpr hk
      exact lt_of_lt_of_le hk2 (hmax' k)
    have hA : ∀ i, |v i| = |v i0| →
        ((∑ j, Q i j) = 1 ∧ ∀ j, Q i j ≠ 0 → |v j| = |v i0|) := by
      intro i hi
      have h1 : |v i0| ≤ ∑ j, Q i j * |v j| := by
        calc |v i0| = |v i| := hi.symm
          _ = |∑ j, Q i j * v j| := by rw [← hfix i]
          _ ≤ ∑ j, |Q i j * v j| := Finset.abs_sum_le_sum_abs _ _
          _ = ∑ j, Q i j * |v j| := Finset.sum_congr rfl fun j _ => by
              rw [abs_mul, abs_of_nonneg (hnn i j)]
      have h2 : ∑ j, Q i j * |v j| ≤ ∑ j, Q i j * |v i0| :=
        Finset.sum_le_sum fun j _ => mul_le_mul_of_nonneg_left (hmax' j) (hnn i j)
      have h3 : ∑ j, Q i j * |v i0| ≤ |v i0| := by
        rw [← Finset.sum_mul]
        calc (∑ j, Q i j) * |v i0| ≤ 1 * |v i0| :=
              mul_le_mul_of_nonneg_right (hrow i) (le_of_lt hMpos)
          _ = |v i0| := one_mul _
      have hSm : ∑ j, Q i j * |v i0| = |v i0| := le_antisymm h3 (h1.trans h2)
      have heq2 : ∑ j, Q i j * |v j| = ∑ j, Q i j * |v i0| :=
        le_antisymm h2 (by
          calc ∑ j, Q i j * |v i0| = |v i0| := hSm
            _ ≤ ∑ j, Q i j * |v j| := h1)
      constructor
      · have hSm2 : (∑ j, Q i j) * |v i0| = |v i0| := by
          rw [Finset.sum_mul]
          exact hSm
        have := mul_right_cancel₀ (ne_of_gt hMpos) (hSm2.trans (one_mul _).symm)
        exact this
      · intro j hQj
        have hz : ∑ j, Q i j * (|v i0| - |v j|) = 0 := by
          have hd : ∑ j, Q i j * (|v i0| - |v j|)
              = (∑ j, Q i j * |v i0|) - ∑ j, Q i j * |v j| := by
            rw [← Finset.sum_sub_distrib]
            exact Finset.sum_congr rfl fun j _ => by ring
          rw [hd, heq2, sub_self]
        have hterm := (Finset.sum_eq_zero_iff_of_nonneg (fun j _ =>
          mul_nonneg (hnn i j) (by linarith [hmax' j]))).mp hz j (Finset.mem_univ j)
        rcases mul_eq_zero.mp hterm with h | h
        · exact absurd h hQj
        · linarith [hmax' j]
    obtain ⟨jstar, hpath, hlt1⟩ := habs i0
    have hprop : ∀ x, Relation.ReflTransGen (fun a b => Q a b ≠ 0) i0 x → |v x| = |v i0| := by
      intro x hx
      induction hx with
      | refl => rfl
      | tail _ hstep ih => exact (hA _ ih).2 _ hstep
    have := (hA jstar (hprop jstar hpath)).1
    linarith

/-- A set of states that is closed under transitions and fully stochastic
(row sums 1) makes `1 - Q` singular: its rows are supported on the set and
sum to zero, so they are linearly dependent by a dimension count. -/
theorem det_one_sub_eq_zero {t : ℕ} (Q : Matrix (Fin t) (Fin t) ℚ) (P : Fin t → Prop)
    [DecidablePred P] (hne : ∃ i, P i)
    (hzero : ∀ i j, P i → ¬ P j → Q i j = 0)
    (hrow : ∀ i, P i → ∑ j, Q i j = 1) :
    (1 - Q).det = 0 := by
  classical
  have hScard : 0 < Fintype.card {i : Fin t // P i} := by
    obtain ⟨i, hi⟩ := hne
    exact Fintype.card_pos_iff.mpr ⟨⟨i, hi⟩⟩
  have hr1 : ∀ (i : {i : Fin t // P i}) (j : Fin t), ¬ P j → (1 - Q) i.val j = 0 := by
    intro i j hj
    have hij : (i : Fin t) ≠ j := fun hcon => hj (hcon ▸ i.prop)
    simp [Matrix.sub_apply, Matrix.one_apply_ne hij, hzero _ _ i.prop hj]
  have hr2 : ∀ i : {i : Fin t // P i}, ∑ j, (1 - Q) i.val j = 0 := by
    intro i
    have hone : ∑ j, (1 : Matrix (Fin t) (Fin t) ℚ) i.val j = 1 := by
      simp [Matrix.one_apply]
    have hd : ∑ j, (1 - Q) i.val j
        = (∑ j, (1 : Matrix (Fin t) (Fin t) ℚ) i.val j) - ∑ j, Q i.val j := by
      rw [← Finset.sum_sub_distrib]
      exact Finset.sum_congr rfl fun j _ => rfl
    rw [hd, hone, hrow i.val i.prop, sub_self]
  by_cases hind : LinearIndependent ℚ (fun i : {i : Fin t // P i} => (1 - Q) i.val)
  · exfalso
    set e : ({i : Fin t // P i} → ℚ) →ₗ[ℚ] (Fin t → ℚ) :=
      { toFun := fun gg j => if hj : P j then gg ⟨j, hj⟩ else 0,
        map_add' := by
          intro a b
          funext j
          by_cases hj : P j <;> simp [hj],
        map_smul' := by
          intro c a
          funext j
          by_cases hj : P j <;> simp [hj] } with hedef
    set y : {i : Fin t // P i} → ({i : Fin t // P i} → ℚ) :=
      fun i s => (1 - Q) i.val s.val with hydef
    have hcomp : (fun i : {i : Fin t // P i} => (1 - Q) i.val) = e ∘ y := by
      funext i
      funext j
      simp only [Function.comp_apply, hedef, LinearMap.coe_mk, AddHom.coe_mk]
      by_cases hj : P j
      · simp [hj, hydef]
      · simp [hj, hydef, hr1 i j hj]
    have hyind : LinearIndependent ℚ y := LinearIndependent.of_comp e (hcomp ▸ hind)
    set sumF : ({i : Fin t // P i} → ℚ) →ₗ[ℚ] ℚ :=
      { toFun := fun gg => ∑ s, gg s,
        map_add' := by
          intro a b
          simp [Finset.sum_add_distrib],
        map_smul' := by
          intro c a
          simp [Finset.mul_sum] } with hsdef
    have hker : ∀ i, y i ∈ LinearMap.ker sumF := by
      intro i
      rw [LinearMap.mem_ker]
      have hadd := Fintype.sum_subtype_add_sum_subtype P (fun j => (1 - Q) i.val j)
      have hz2 : ∑ s : {j : Fin t // ¬ P j}, (1 - Q) i.val s.val = 0 :=
        Finset.sum_eq_zero fun s _ => hr1 i s.val s.prop
      show ∑ s, y i s = 0
      have hys : ∑ s, y i s = ∑ s : {i : Fin t // P i}, (1 - Q) i.val s.val := rfl
      rw [hys]
      have hr2i := hr2 i
      rw [← hadd, hz2, add_zero] at hr2i
      exact hr2i
    set y' : {i : Fin t // P i} → LinearMap.ker sumF := fun i => ⟨y i, hker i⟩ with hy'def
    have hy'ind : LinearIndependent ℚ y' := by
      refine LinearIndependent.of_comp (LinearMap.ker sumF).subtype ?_
      have hc : (LinearMap.ker sumF).subtype ∘ y' = y := rfl
      rw [hc]
      exact hyind
    have hcard := hy'ind.fintype_card_le_finrank
    have hsur : LinearMap.range sumF = ⊤ := by
      rw [LinearMap.range_eq_top]
      intro c
      obtain ⟨i1, hi1⟩ := hne
      refine ⟨(fun s => if s = (⟨i1, hi1⟩ : {i : Fin t // P i}) then c else 0), ?_⟩
      show (∑ s, if s = (⟨i1, hi1⟩ : {i : Fin t // P i}) then c else 0) = c
      rw [Finset.sum_ite_eq' Finset.univ]
      simp
    have hrank := LinearMap.finrank_range_add_finrank_ker sumF
    rw [hsur] at hrank
    have htop : Module.finrank ℚ (⊤ : Submodule ℚ ℚ) = 1 := by
      simp
    have hpi : Module.finrank ℚ ({i : Fin t // P i} → ℚ)
        = Fintype.card {i : Fin t // P i} := by
      simp [Module.finrank_pi]
    rw [htop, hpi] at hrank
    omega
  · rw [Fintype.not_linearIndependent_iff] at hind
    obtain ⟨g, hgsum, s0, hs0⟩ := hind
    set G : Fin t → ℚ := fun j => if hj : P j then g ⟨j, hj⟩ else 0 with hGdef
    have hGne : G ≠ 0 := by
      intro hcon
      have hc := congrFun hcon s0.val
      rw [hGdef] at hc
      simp only [s0.prop, dif_pos, Pi.zero_apply] at hc
      exact hs0 (by simpa using hc)
    have hGmul : Matrix.vecMul G (1 - Q) = 0 := by
      funext j
      have hvm : Matrix.vecMul G (1 - Q) j = ∑ i, G i * (1 - Q) i j := by
        simp [Matrix.vecMul, Matrix.dotProduct]
      rw [hvm]
      have hadd := Fintype.sum_subtype_add_sum_subtype P (fun i => G i * (1 - Q) i j)
      have hz2 : ∑ s : {i : Fin t // ¬ P i}, G s.val * (1 - Q) s.val j = 0 :=
        Finset.sum_eq_zero fun s _ => by
          rw [hGdef]
          simp [s.prop]
      have hsplit : ∑ i : Fin t, G i * (1 - Q) i j
          = ∑ s : {i : Fin t // P i}, G s.val * (1 - Q) s.val j := by
        rw [← hadd, hz2, add_zero]
      rw [hsplit]
      have hval : ∀ s : {i : Fin t // P i}, G s.val = g s := by
        intro s
        rw [hGdef]
        simp [s.prop]
      have hfin : ∑ s : {i : Fin t // P i}, g s * (1 - Q) s.val j = 0 := by
        have hc := congrFun hgsum j
        simpa [Finset.sum_apply] using hc
      calc ∑ s : {i : Fin t // P i}, G s.val * (1 - Q) s.val j
          = ∑ s : {i : Fin t // P i}, g s * (1 - Q) s.val j :=
            Finset.sum_congr rfl fun s _ => by rw [hval s]
        _ = 0 := hfin
    have hdetT : (1 - Q).transpose.det = 0 := by
      rw [← Matrix.exists_mulVec_eq_zero_iff]
      exact ⟨G, hGne, by rw [Matrix.mulVec_transpose]; exact hGmul⟩
    rw [← Matrix.det_transpose]
    exact hdetT

end Doomsday

namespace Doomsday

theorem mem_transientIdx {m : List (List ℕ)} {s : ℕ} :
    s ∈ transientIdx m ↔ s < m.length ∧ (m.getD s []).sum ≠ 0 := by
  unfold transientIdx absorbingB
  simp [List.mem_filter]

theorem mem_absorbingIdx {m : List (List ℕ)} {c : ℕ} :
    c ∈ absorbingIdx m ↔ c < m.length ∧ (m.getD c []).sum = 0 := by
  unfold absorbingIdx absorbingB
  simp [List.mem_filter]

theorem filter_map_sum_split {α : Type} (p : α → Bool) (f : α → ℚ) :
    ∀ l : List α,
      ((l.filter p).map f).sum + ((l.filter (fun x => ! p x)).map f).sum = (l.map f).sum := by
  intro l
  induction l with
  | nil => simp
  | cons a t ih =>
    rcases hp : p a with _ | _ <;> simp [List.filter_cons, hp] <;> linarith [ih]

theorem range_map_getD (l : List ℕ) :
    (List.range l.length).map (fun c => l.getD c 0) = l := by
  induction l with
  | nil => rfl
  | cons a t ih =>
    rw [List.length_cons, List.range_succ_eq_map, List.map_cons, List.map_map]
    have hc : ((fun c => (a :: t).getD c 0) ∘ Nat.succ) = fun c => t.getD c 0 := by
      funext c
      simp [List.getD_cons_succ]
    rw [hc, ih]
    rfl

theorem sum_fin_getD (l : List ℕ) (f : ℕ → ℚ) :
    ∀ (n : ℕ), n = l.length → (∑ j : Fin n, f (l.getD j 0)) = (l.map f).sum := by
  induction l with
  | nil =>
    intro n hn
    subst hn
    simp
  | cons a t ih =>
    intro n hn
    subst hn
    simp only [List.length_cons]
    rw [Fin.sum_univ_succ]
    simp only [Fin.val_zero, List.getD_cons_zero, Fin.val_succ, List.getD_cons_succ,
      List.map_cons, List.sum_cons]
    rw [ih t.length rfl]

theorem sum_map_div (l : List ℕ) (f : ℕ → ℚ) (T : ℚ) :
    (l.map fun c => f c / T).sum = (l.map f).sum / T := by
  induction l with
  | nil => simp
  | cons a t ih =>
    simp only [List.map_cons, List.sum_cons, ih]
    ring

theorem row_length {m : List (List ℕ)} (hsq : square m) {s : ℕ} (hs : s < m.length) :
    (m.getD s []).length = m.length := by
  refine hsq _ ?_
  rw [List.getD_eq_getElem?_getD, List.getElem?_eq_getElem hs]
  simp only [Option.getD_some]
  exact List.getElem_mem _

theorem step_lt {m : List (List ℕ)} (hsq : square m) {a b : ℕ} (ha : a < m.length)
    (hab : step m a b) : b < m.length := by
  by_contra hb
  have hlen : (m.getD a []).length ≤ b := by
    rw [row_length hsq ha]
    omega
  exact hab (List.getD_eq_default _ _ hlen)

/-- The full-row sum over the examined columns, split into transient and
absorbing columns, equals the Python `sum(m[row])`. -/
theorem row_sum_split {m : List (List ℕ)} (hsq : square m) {s : ℕ} (hs : s < m.length) :
    ((transientIdx m).map (fun c => ((m.getD s []).getD c 0 : ℚ))).sum
      + ((absorbingIdx m).map (fun c => ((m.getD s []).getD c 0 : ℚ))).sum
      = (((m.getD s []).sum : ℕ) : ℚ) := by
  unfold transientIdx absorbingIdx
  have hsplit := filter_map_sum_split (fun c => absorbingB m c)
    (fun c => ((m.getD s []).getD c 0 : ℚ)) (List.range m.length)
  have hrange : ((List.range m.length).map (fun c => ((m.getD s []).getD c 0 : ℚ))).sum
      = (((m.getD s []).sum : ℕ) : ℚ) := by
    have hlen : m.length = (m.getD s []).length := (row_length hsq hs).symm
    rw [hlen]
    have hmap : (List.range (m.getD s []).length).map (fun c => ((m.getD s []).getD c 0 : ℚ))
        = ((m.getD s []).map (fun x : ℕ => (x : ℚ))) := by
      have h1 : (List.range (m.getD s []).length).map (fun c => ((m.getD s []).getD c 0 : ℚ))
          = ((List.range (m.getD s []).length).map (fun c => (m.getD s []).getD c 0)).map
            (fun x : ℕ => (x : ℚ)) := by
        rw [List.map_map]
        rfl
      rw [h1, range_map_getD]
    rw [hmap]
    exact (Nat.cast_list_sum _).symm
  rw [hrange] at hsplit
  linarith [hsplit]

end Doomsday

namespace Doomsday

theorem headD_eq_getD {α : Type} (l : List α) (d : α) : l.headD d = l.getD 0 d := by
  cases l <;> rfl

theorem getD_map_lt {α β : Type} (f : α → β) (l : List α) {i : ℕ} (hi : i < l.length)
    (d : α) (d' : β) : (l.map f).getD i d' = f (l.getD i d) := by
  rw [List.getD_eq_getElem?_getD, List.getD_eq_getElem?_getD, List.getElem?_map,
    List.getElem?_eq_getElem hi]
  rfl

theorem getD_ofFn {α : Type} {n : ℕ} (f : Fin n → α) {i : ℕ} (hi : i < n) (d : α) :
    (List.ofFn f).getD i d = f ⟨i, hi⟩ := by
  rw [List.getD_eq_getElem?_getD, List.getElem?_ofFn]
  simp [List.ofFnNthVal, hi]

theorem getD_mem_nat {l : List ℕ} {i : ℕ} (hi : i < l.length) : l.getD i 0 ∈ l := by
  rw [List.getD_eq_getElem?_getD, List.getElem?_eq_getElem hi]
  exact List.getElem_mem _

theorem sum_fin_getD_rat (L : List ℚ) :
    ∀ (n : ℕ), n = L.length → (∑ j : Fin n, L.getD (↑j) 0) = L.sum := by
  induction L with
  | nil =>
    intro n hn
    subst hn
    simp
  | cons a t ih =>
    intro n hn
    subst hn
    simp only [List.length_cons]
    rw [Fin.sum_univ_succ]
    simp only [Fin.val_zero, List.getD_cons_zero, Fin.val_succ, List.getD_cons_succ,
      List.sum_cons]
    rw [ih t.length rfl]

theorem idxN_lt {l : List ℕ} {x : ℕ} (hx : x ∈ l) : idxN l x < l.length := by
  induction l with
  | nil => cases hx
  | cons a t ih =>
    rw [idxN]
    by_cases hax : a = x
    · rw [if_pos hax]
      simp
    · rw [if_neg hax, List.length_cons]
      have hxt : x ∈ t := by
        rcases List.mem_cons.mp hx with h | h
        · exact absurd h.symm hax
        · exact h
      exact Nat.succ_lt_succ (ih hxt)

theorem getD_idxN {l : List ℕ} {x : ℕ} (hx : x ∈ l) : l.getD (idxN l x) 0 = x := by
  induction l with
  | nil => cases hx
  | cons a t ih =>
    rw [idxN]
    by_cases hax : a = x
    · rw [if_pos hax]
      exact hax
    · rw [if_neg hax, List.getD_cons_succ]
      have hxt : x ∈ t := by
        rcases List.mem_cons.mp hx with h | h
        · exact absurd h.symm hax
        · exact h
      exact ih hxt

theorem idxN_getD {l : List ℕ} (hnd : l.Nodup) : ∀ {i : ℕ}, i < l.length →
    idxN l (l.getD i 0) = i := by
  induction l with
  | nil => intro i hi; cases hi
  | cons a t ih =>
    intro i hi
    match i with
    | 0 =>
      rw [List.getD_cons_zero, idxN, if_pos rfl]
    | i + 1 =>
      rw [List.getD_cons_succ, idxN]
      have hit : i < t.length := by
        rw [List.length_cons] at hi
        omega
      have hmem : t.getD i 0 ∈ t := getD_mem_nat hit
      have hane : ¬ a = t.getD i 0 := fun h => (List.nodup_cons.mp hnd).1 (h ▸ hmem)
      rw [if_neg hane, ih (List.nodup_cons.mp hnd).2 hit]

theorem transientIdx_nodup (m : List (List ℕ)) : (transientIdx m).Nodup :=
  (List.nodup_range _).filter _

theorem split_matrix_q_length (m : List (List ℕ)) :
    (split_matrix m).2.length = (transientIdx m).length := by
  unfold split_matrix
  exact List.length_map _ _

theorem split_matrix_r_length (m : List (List ℕ)) :
    (split_matrix m).1.length = (transientIdx m).length := by
  unfold split_matrix
  exact List.length_map _ _

theorem Qrow_getD {m : List (List ℕ)} {k : ℕ} (hk : k < (transientIdx m).length) :
    (split_matrix m).2.getD k []
      = (transientIdx m).map (rowProb m ((transientIdx m).getD k 0)) := by
  unfold split_matrix
  exact getD_map_lt _ _ hk 0 []

theorem Rrow_getD {m : List (List ℕ)} {k : ℕ} (hk : k < (transientIdx m).length) :
    (split_matrix m).1.getD k []
      = (absorbingIdx m).map (rowProb m ((transientIdx m).getD k 0)) := by
  unfold split_matrix
  exact getD_map_lt _ _ hk 0 []

theorem Qentry {m : List (List ℕ)} {i j : ℕ} (hi : i < (transientIdx m).length)
    (hj : j < (transientIdx m).length) :
    ((split_matrix m).2.getD i []).getD j 0
      = rowProb m ((transientIdx m).getD i 0) ((transientIdx m).getD j 0) := by
  rw [Qrow_getD hi]
  exact getD_map_lt _ _ hj 0 0

theorem listToMat_apply (r c : ℕ) (L : List (List ℚ)) (i : Fin r) (j : Fin c) :
    listToMat r c L i j = ((L.getD (↑i) []).getD (↑j) 0) := rfl

theorem matToList_getD {r c : ℕ} (M : Matrix (Fin r) (Fin c) ℚ) (i : Fin r) (j : Fin c) :
    ((matToList M).getD (↑i) []).getD (↑j) 0 = M i j := by
  unfold matToList
  rw [getD_ofFn _ i.isLt, getD_ofFn _ j.isLt]

theorem rowProb_nonneg (m : List (List ℕ)) (i c : ℕ) : 0 ≤ rowProb m i c :=
  div_nonneg (Nat.cast_nonneg _) (Nat.cast_nonneg _)

theorem rowProb_ne_zero_iff {m : List (List ℕ)} {s : ℕ} (c : ℕ)
    (hS : (m.getD s []).sum ≠ 0) :
    rowProb m s c ≠ 0 ↔ (m.getD s []).getD c 0 ≠ 0 := by
  unfold rowProb
  rw [div_ne_zero_iff]
  constructor
  · intro h
    exact_mod_cast h.1
  · intro h
    exact ⟨by exact_mod_cast h, by exact_mod_cast hS⟩

theorem transient_prob_sum {m : List (List ℕ)} (hsq : square m) {s : ℕ}
    (hs : s ∈ transientIdx m) :
    ((transientIdx m).map (rowProb m s)).sum
      + ((absorbingIdx m).map (rowProb m s)).sum = 1 := by
  obtain ⟨hsl, hssum⟩ := mem_transientIdx.mp hs
  have hS : (((m.getD s []).sum : ℕ) : ℚ) ≠ 0 := Nat.cast_ne_zero.mpr hssum
  have hrw : rowProb m s
      = fun c => ((m.getD s []).getD c 0 : ℚ) / ((m.getD s []).sum : ℚ) := rfl
  rw [hrw, sum_map_div, sum_map_div, div_add_div_same, row_sum_split hsq hsl, div_self hS]

end Doomsday

namespace Doomsday

theorem Qmat_fin_row_sum {m : List (List ℕ)} {k : ℕ}
    (hk : k < (transientIdx m).length) :
    (∑ l : Fin (split_matrix m).2.length, ((split_matrix m).2.getD k []).getD (↑l) 0)
      = ((transientIdx m).map (rowProb m ((transientIdx m).getD k 0))).sum := by
  rw [Qrow_getD hk]
  exact sum_fin_getD_rat _ _ (by rw [split_matrix_q_length, List.length_map])

theorem absorbing_part_nonneg (m : List (List ℕ)) (s : ℕ) :
    0 ≤ ((absorbingIdx m).map (rowProb m s)).sum := by
  refine List.sum_nonneg ?_
  intro x hx
  obtain ⟨c, _, hc⟩ := List.mem_map.mp hx
  exact hc ▸ rowProb_nonneg m s c

theorem absorbing_part_pos {m : List (List ℕ)} {s a : ℕ}
    (hs : (m.getD s []).sum ≠ 0) (ha : a ∈ absorbingIdx m) (hstep : step m s a) :
    0 < ((absorbingIdx m).map (rowProb m s)).sum := by
  have hterm : 0 < rowProb m s a := by
    unfold rowProb
    refine div_pos ?_ ?_
    · exact_mod_cast Nat.pos_of_ne_zero hstep
    · exact_mod_cast Nat.pos_of_ne_zero hs
  have hmem : rowProb m s a ∈ (absorbingIdx m).map (rowProb m s) :=
    List.mem_map_of_mem _ ha
  have hle : rowProb m s a ≤ ((absorbingIdx m).map (rowProb m s)).sum := by
    refine List.single_le_sum ?_ _ hmem
    intro x hx
    obtain ⟨c, _, hc⟩ := List.mem_map.mp hx
    exact hc ▸ rowProb_nonneg m s c
  linarith

theorem absorbing_part_zero {m : List (List ℕ)} {s : ℕ}
    (hzero : ∀ a ∈ absorbingIdx m, (m.getD s []).getD a 0 = 0) :
    ((absorbingIdx m).map (rowProb m s)).sum = 0 := by
  refine List.sum_eq_zero ?_
  intro x hx
  obtain ⟨c, hc, hcx⟩ := List.mem_map.mp hx
  rw [← hcx]
  unfold rowProb
  rw [hzero c hc]
  simp

theorem exit_of_reaches {m : List (List ℕ)} {s c : ℕ} (hr : reaches m s c)
    (hc : terminal m c) :
    ¬ terminal m s →
      ∃ j, Relation.ReflTransGen (fun x y => step m x y ∧ ¬ terminal m y) s j ∧
        ¬ terminal m j ∧ ∃ a, terminal m a ∧ step m j a := by
  induction hr using Relation.ReflTransGen.head_induction_on with
  | refl => exact fun hs => absurd hc hs
  | @head x y hstep hrtg ih =>
    intro hs
    by_cases hy : terminal m y
    · exact ⟨x, Relation.ReflTransGen.refl, hs, y, hy, hstep⟩
    · obtain ⟨j, hj1, hj2, hj3⟩ := ih hy
      exact ⟨j, Relation.ReflTransGen.head ⟨hstep, hy⟩ hj1, hj2, hj3⟩

theorem rtg_lt {m : List (List ℕ)} (hsq : square m) {s j : ℕ}
    (h : Relation.ReflTransGen (fun x y => step m x y ∧ ¬ terminal m y) s j)
    (hs : s < m.length) : j < m.length := by
  induction h with
  | refl => exact hs
  | tail _ hstep ih => exact step_lt hsq ih hstep.1

theorem rtg_fin_of_rtg {m : List (List ℕ)} (hsq : square m) {s j : ℕ}
    (hs : s ∈ transientIdx m)
    (h : Relation.ReflTransGen (fun x y => step m x y ∧ ¬ terminal m y) s j)
    (i0 : Fin (split_matrix m).2.length)
    (hi0 : (transientIdx m).getD (↑i0) 0 = s) :
    j ∈ transientIdx m ∧
      ∃ jF : Fin (split_matrix m).2.length, (↑jF : ℕ) = idxN (transientIdx m) j ∧
        Relation.ReflTransGen
          (fun a b : Fin (split_matrix m).2.length =>
            listToMat (split_matrix m).2.length (split_matrix m).2.length
              (split_matrix m).2 a b ≠ 0)
          i0 jF := by
  have hi0lt : (↑i0 : ℕ) < (transientIdx m).length := by
    rw [← split_matrix_q_length]; exact i0.isLt
  induction h with
  | refl =>
    refine ⟨hs, i0, ?_, Relation.ReflTransGen.refl⟩
    rw [← hi0]
    exact (idxN_getD (transientIdx_nodup m) hi0lt).symm
  | @tail b j hsb hstep ih =>
    obtain ⟨hb, jF, hjFv, hfin⟩ := ih
    have hbl : b < m.length := (mem_transientIdx.mp hb).1
    have hjl : j < m.length := step_lt hsq hbl hstep.1
    have hj : j ∈ transientIdx m := mem_transientIdx.mpr ⟨hjl, hstep.2⟩
    have hjlt : idxN (transientIdx m) j < (split_matrix m).2.length := by
      rw [split_matrix_q_length]; exact idxN_lt hj
    refine ⟨hj, ⟨idxN (transientIdx m) j, hjlt⟩, rfl,
      Relation.ReflTransGen.tail hfin ?_⟩
    show ((split_matrix m).2.getD (↑jF) []).getD (idxN (transientIdx m) j) 0 ≠ 0
    rw [hjFv]
    have hbq : idxN (transientIdx m) b < (transientIdx m).length := idxN_lt hb
    have hjq : idxN (transientIdx m) j < (transientIdx m).length := idxN_lt hj
    rw [Qentry hbq hjq, getD_idxN hb, getD_idxN hj]
    exact (rowProb_ne_zero_iff j (mem_transientIdx.mp hb).2).mpr hstep.1

end Doomsday

namespace Doomsday

theorem det_ok_of_absorbs {m : List (List ℕ)} (hsq : square m)
    (hab : absorbs m) :
    ((1 : Matrix (Fin (split_matrix m).2.length) (Fin (split_matrix m).2.length) ℚ)
        - listToMat (split_matrix m).2.length (split_matrix m).2.length
            (split_matrix m).2).det ≠ 0 := by
  apply det_one_sub_ne_zero
  · intro i j
    rw [listToMat_apply]
    have hi : (↑i : ℕ) < (transientIdx m).length := by
      rw [← split_matrix_q_length]; exact i.isLt
    have hj : (↑j : ℕ) < (transientIdx m).length := by
      rw [← split_matrix_q_length]; exact j.isLt
    rw [Qentry hi hj]
    exact rowProb_nonneg _ _ _
  · intro i
    have hi : (↑i : ℕ) < (transientIdx m).length := by
      rw [← split_matrix_q_length]; exact i.isLt
    have hrw : (∑ j : Fin (split_matrix m).2.length,
        listToMat (split_matrix m).2.length (split_matrix m).2.length (split_matrix m).2 i j)
        = ((transientIdx m).map (rowProb m ((transientIdx m).getD (↑i) 0))).sum := by
      rw [← Qmat_fin_row_sum hi]
      exact Finset.sum_congr rfl fun j _ => listToMat_apply _ _ _ _ _
    rw [hrw]
    have hsT : (transientIdx m).getD (↑i) 0 ∈ transientIdx m := getD_mem_nat hi
    have := transient_prob_sum hsq hsT
    have := absorbing_part_nonneg m ((transientIdx m).getD (↑i) 0)
    linarith
  · intro i
    have hi : (↑i : ℕ) < (transientIdx m).length := by
      rw [← split_matrix_q_length]; exact i.isLt
    have hsT : (transientIdx m).getD (↑i) 0 ∈ transientIdx m := getD_mem_nat hi
    obtain ⟨hsl, hssum⟩ := mem_transientIdx.mp hsT
    obtain ⟨c, hc, hrc⟩ := hab _ hsl
    obtain ⟨j, hchain, hjt, a, hat, hstep⟩ := exit_of_reaches hrc hc hssum
    obtain ⟨hjT, jF, hjFv, hfin⟩ := rtg_fin_of_rtg hsq hsT hchain i rfl
    refine ⟨jF, hfin, ?_⟩
    have hjq : idxN (transientIdx m) j < (transientIdx m).length := idxN_lt hjT
    have hrw : (∑ k : Fin (split_matrix m).2.length,
        listToMat (split_matrix m).2.length (split_matrix m).2.length (split_matrix m).2
          jF k)
        = ((transientIdx m).map (rowProb m
            ((transientIdx m).getD (idxN (transientIdx m) j) 0))).sum := by
      rw [← Qmat_fin_row_sum hjq]
      refine Finset.sum_congr rfl fun k _ => ?_
      rw [listToMat_apply, hjFv]
    rw [hrw, getD_idxN hjT]
    have hjl : j < m.length := (mem_transientIdx.mp hjT).1
    have hal : a < m.length := step_lt hsq hjl hstep
    have haA : a ∈ absorbingIdx m := mem_absorbingIdx.mpr ⟨hal, hat⟩
    have hpos := absorbing_part_pos (mem_transientIdx.mp hjT).2 haA hstep
    have := transient_prob_sum hsq hjT
    linarith

theorem det_zero_of_trapped {m : List (List ℕ)} (hsq : square m)
    {s : ℕ} (hs : s < m.length) (hst : ¬ terminal m s)
    (hno : ∀ c, terminal m c → ¬ reaches m s c) :
    ((1 : Matrix (Fin (split_matrix m).2.length) (Fin (split_matrix m).2.length) ℚ)
        - listToMat (split_matrix m).2.length (split_matrix m).2.length
            (split_matrix m).2).det = 0 := by
  classical
  have hsT : s ∈ transientIdx m := mem_transientIdx.mpr ⟨hs, hst⟩
  refine det_one_sub_eq_zero _
    (fun i : Fin (split_matrix m).2.length =>
      ∀ c, terminal m c → ¬ reaches m ((transientIdx m).getD (↑i) 0) c) ?_ ?_ ?_
  · refine ⟨⟨idxN (transientIdx m) s, by rw [split_matrix_q_length]; exact idxN_lt hsT⟩, ?_⟩
    intro c hc
    have : (transientIdx m).getD (idxN (transientIdx m) s) 0 = s := getD_idxN hsT
    rw [this]
    exact hno c hc
  · intro i j hPi hPj
    by_contra hQ
    have hi : (↑i : ℕ) < (transientIdx m).length := by
      rw [← split_matrix_q_length]; exact i.isLt
    have hj : (↑j : ℕ) < (transientIdx m).length := by
      rw [← split_matrix_q_length]; exact j.isLt
    rw [listToMat_apply, Qentry hi hj] at hQ
    have hsiT : (transientIdx m).getD (↑i) 0 ∈ transientIdx m := getD_mem_nat hi
    have hstep : step m ((transientIdx m).getD (↑i) 0) ((transientIdx m).getD (↑j) 0) :=
      (rowProb_ne_zero_iff _ (mem_transientIdx.mp hsiT).2).mp hQ
    have hPj' : ∃ c, terminal m c ∧ reaches m ((transientIdx m).getD (↑j) 0) c := by
      by_contra hcon
      apply hPj
      intro c hc hr
      exact hcon ⟨c, hc, hr⟩
    obtain ⟨c, hc, hrc⟩ := hPj'
    exact hPi c hc (Relation.ReflTransGen.head hstep hrc)
  · intro i hPi
    have hi : (↑i : ℕ) < (transientIdx m).length := by
      rw [← split_matrix_q_length]; exact i.isLt
    have hsT' : (transientIdx m).getD (↑i) 0 ∈ transientIdx m := getD_mem_nat hi
    have hrw : (∑ j : Fin (split_matrix m).2.length,
        listToMat (split_matrix m).2.length (split_matrix m).2.length (split_matrix m).2 i j)
        = ((transientIdx m).map (rowProb m ((transientIdx m).getD (↑i) 0))).sum := by
      rw [← Qmat_fin_row_sum hi]
      exact Finset.sum_congr rfl fun j _ => listToMat_apply _ _ _ _ _
    rw [hrw]
    have hzero : ∀ a ∈ absorbingIdx m,
        (m.getD ((transientIdx m).getD (↑i) 0) []).getD a 0 = 0 := by
      intro a ha
      by_contra hne
      obtain ⟨hal, hat⟩ := mem_absorbingIdx.mp ha
      exact hPi a hat (Relation.ReflTransGen.single hne)
    have hA0 := absorbing_part_zero hzero
    have := transient_prob_sum hsq hsT'
    linarith

end Doomsday

namespace Doomsday

theorem find_f_err {q : List (List ℚ)}
    (h : detF q.length
        ((1 : Matrix (Fin q.length) (Fin q.length) ℚ) - listToMat q.length q.length q) = 0) :
    find_f_submatrix q = .error "Singular matrix" := by
  show (if detF q.length
      ((1 : Matrix (Fin q.length) (Fin q.length) ℚ) - listToMat q.length q.length q) = 0
    then (Except.error "Singular matrix" : Except String (List (List ℚ)))
    else .ok (matToList ((detF q.length
        ((1 : Matrix (Fin q.length) (Fin q.length) ℚ) - listToMat q.length q.length q))⁻¹
      • adjF q.length
        ((1 : Matrix (Fin q.length) (Fin q.length) ℚ) - listToMat q.length q.length q))))
    = .error "Singular matrix"
  rw [if_pos h]

theorem find_f_ok {q : List (List ℚ)}
    (h : detF q.length
        ((1 : Matrix (Fin q.length) (Fin q.length) ℚ) - listToMat q.length q.length q) ≠ 0) :
    find_f_submatrix q = .ok (matToList ((detF q.length
        ((1 : Matrix (Fin q.length) (Fin q.length) ℚ) - listToMat q.length q.length q))⁻¹
      • adjF q.length
        ((1 : Matrix (Fin q.length) (Fin q.length) ℚ) - listToMat q.length q.length q))) := by
  show (if detF q.length
      ((1 : Matrix (Fin q.length) (Fin q.length) ℚ) - listToMat q.length q.length q) = 0
    then (Except.error "Singular matrix" : Except String (List (List ℚ)))
    else .ok (matToList ((detF q.length
        ((1 : Matrix (Fin q.length) (Fin q.length) ℚ) - listToMat q.length q.length q))⁻¹
      • adjF q.length
        ((1 : Matrix (Fin q.length) (Fin q.length) ℚ) - listToMat q.length q.length q))))
    = _
  rw [if_neg h]

theorem solution_guard {m : List (List ℕ)} (h : m.length ≤ 1 ∨ (m.headD []).sum = 0) :
    solution m = .ok [1, 1] := by
  unfold solution
  rw [if_pos h]

theorem solution_else {m : List (List ℕ)} (h : ¬ (m.length ≤ 1 ∨ (m.headD []).sum = 0)) :
    solution m = match find_f_submatrix (split_matrix m).2 with
      | .error e => .error e
      | .ok f => .ok (probabilities ((np_dot f (split_matrix m).1).headD [])) := by
  unfold solution
  rw [if_neg h]

end Doomsday

namespace Doomsday

theorem matToList_getD_row {r c : ℕ} (M : Matrix (Fin r) (Fin c) ℚ) {i : ℕ} (hi : i < r) :
    (matToList M).getD i [] = List.ofFn (fun j => M ⟨i, hi⟩ j) := by
  unfold matToList
  rw [getD_ofFn _ hi]

theorem sum_fin_eq_sum_fin {n n' : ℕ} (h : n = n') (f : ℕ → ℚ) :
    (∑ k : Fin n, f (↑k)) = ∑ k : Fin n', f (↑k) := by
  subst h
  rfl

theorem fr_head_props {m : List (List ℕ)} (hsq : square m)
    (h1 : 1 < m.length) (h0 : (m.headD []).sum ≠ 0)
    (F : Matrix (Fin (split_matrix m).2.length) (Fin (split_matrix m).2.length) ℚ)
    (hFQ : F * ((1 : Matrix (Fin (split_matrix m).2.length)
          (Fin (split_matrix m).2.length) ℚ)
        - listToMat (split_matrix m).2.length (split_matrix m).2.length
            (split_matrix m).2) = 1) :
    ((np_dot (matToList F) (split_matrix m).1).headD []).length = (absorbingIdx m).length
      ∧ ((np_dot (matToList F) (split_matrix m).1).headD []).sum = 1 := by
  have h0T : 0 ∈ transientIdx m := by
    refine mem_transientIdx.mpr ⟨by omega, ?_⟩
    rwa [headD_eq_getD] at h0
  have hTpos : 0 < (transientIdx m).length :=
    List.length_pos.mpr (List.ne_nil_of_mem h0T)
  have hqlen : (split_matrix m).2.length = (transientIdx m).length := split_matrix_q_length m
  have hRlen : (split_matrix m).1.length = (transientIdx m).length := split_matrix_r_length m
  have hnq0 : 0 < (split_matrix m).2.length := by omega
  have hflen : (matToList F).length = (split_matrix m).2.length := by
    unfold matToList
    exact List.length_ofFn _
  have hfpos : 0 < (matToList F).length := by omega
  have hR0 : (split_matrix m).1.headD []
      = (absorbingIdx m).map (rowProb m ((transientIdx m).getD 0 0)) := by
    rw [headD_eq_getD]
    exact Rrow_getD hTpos
  have haR : ((split_matrix m).1.headD []).length = (absorbingIdx m).length := by
    rw [hR0, List.length_map]
  have hhead : (np_dot (matToList F) (split_matrix m).1).headD []
      = List.ofFn (fun j : Fin ((split_matrix m).1.headD []).length =>
          (listToMat (matToList F).length (split_matrix m).1.length (matToList F)
            * listToMat (split_matrix m).1.length ((split_matrix m).1.headD []).length
                (split_matrix m).1) ⟨0, hfpos⟩ j) := by
    rw [headD_eq_getD]
    exact matToList_getD_row _ hfpos
  refine ⟨by rw [hhead, List.length_ofFn, haR], ?_⟩
  rw [hhead, List.sum_ofFn]
  have hterm : ∀ j : Fin ((split_matrix m).1.headD []).length,
      (listToMat (matToList F).length (split_matrix m).1.length (matToList F)
        * listToMat (split_matrix m).1.length ((split_matrix m).1.headD []).length
            (split_matrix m).1) ⟨0, hfpos⟩ j
      = ∑ k : Fin (split_matrix m).1.length,
          ((matToList F).getD 0 []).getD (↑k) 0
            * ((split_matrix m).1.getD (↑k) []).getD (↑j) 0 := by
    intro j
    rw [Matrix.mul_apply]
    exact Finset.sum_congr rfl fun k _ => rfl
  have hstep1 : ∀ k : Fin (split_matrix m).1.length,
      (∑ j : Fin ((split_matrix m).1.headD []).length,
        ((matToList F).getD 0 []).getD (↑k) 0
          * ((split_matrix m).1.getD (↑k) []).getD (↑j) 0)
      = ((matToList F).getD 0 []).getD (↑k) 0
          * (1 - ((transientIdx m).map (rowProb m ((transientIdx m).getD (↑k) 0))).sum) := by
    intro k
    rw [← Finset.mul_sum]
    congr 1
    have hkT : (↑k : ℕ) < (transientIdx m).length := by rw [← hRlen]; exact k.isLt
    have hrowk : (split_matrix m).1.getD (↑k) []
        = (absorbingIdx m).map (rowProb m ((transientIdx m).getD (↑k) 0)) := Rrow_getD hkT
    have hlenk : ((split_matrix m).1.headD []).length
        = ((split_matrix m).1.getD (↑k) []).length := by
      rw [haR, hrowk, List.length_map]
    rw [sum_fin_getD_rat _ _ hlenk, hrowk]
    have hkmem : (transientIdx m).getD (↑k) 0 ∈ transientIdx m := getD_mem_nat hkT
    have := transient_prob_sum hsq hkmem
    linarith
  have hid : (∑ k : Fin (split_matrix m).2.length,
      ((matToList F).getD 0 []).getD (↑k) 0
        * (1 - ((transientIdx m).map (rowProb m ((transientIdx m).getD (↑k) 0))).sum)) = 1 := by
    have h1k : ∀ k : Fin (split_matrix m).2.length,
        ((matToList F).getD 0 []).getD (↑k) 0
          * (1 - ((transientIdx m).map (rowProb m ((transientIdx m).getD (↑k) 0))).sum)
        = F ⟨0, hnq0⟩ k * (1 - ∑ l : Fin (split_matrix m).2.length,
            listToMat (split_matrix m).2.length (split_matrix m).2.length
              (split_matrix m).2 k l) := by
      intro k
      have hkT : (↑k : ℕ) < (transientIdx m).length := by rw [← hqlen]; exact k.isLt
      have hF : ((matToList F).getD 0 []).getD (↑k) 0 = F ⟨0, hnq0⟩ k :=
        matToList_getD F ⟨0, hnq0⟩ k
      have hQ : (∑ l : Fin (split_matrix m).2.length,
          listToMat (split_matrix m).2.length (split_matrix m).2.length
            (split_matrix m).2 k l)
          = ((transientIdx m).map (rowProb m ((transientIdx m).getD (↑k) 0))).sum := by
        rw [← Qmat_fin_row_sum hkT]
        exact Finset.sum_congr rfl fun l _ => listToMat_apply _ _ _ _ _
      rw [hF, hQ]
    have hone : (∑ l : Fin (split_matrix m).2.length,
        (1 : Matrix (Fin (split_matrix m).2.length) (Fin (split_matrix m).2.length) ℚ)
          ⟨0, hnq0⟩ l) = 1 := by
      simp [Matrix.one_apply, Finset.sum_ite_eq]
    have hmain : (∑ l : Fin (split_matrix m).2.length,
        (F * ((1 : Matrix (Fin (split_matrix m).2.length)
            (Fin (split_matrix m).2.length) ℚ)
          - listToMat (split_matrix m).2.length (split_matrix m).2.length
              (split_matrix m).2)) ⟨0, hnq0⟩ l) = 1 := by
      rw [hFQ]
      exact hone
    have hexp : (∑ l : Fin (split_matrix m).2.length,
        (F * ((1 : Matrix (Fin (split_matrix m).2.length)
            (Fin (split_matrix m).2.length) ℚ)
          - listToMat (split_matrix m).2.length (split_matrix m).2.length
              (split_matrix m).2)) ⟨0, hnq0⟩ l)
        = ∑ k : Fin (split_matrix m).2.length,
            F ⟨0, hnq0⟩ k * (1 - ∑ l : Fin (split_matrix m).2.length,
              listToMat (split_matrix m).2.length (split_matrix m).2.length
                (split_matrix m).2 k l) := by
      simp only [Matrix.mul_apply]
      rw [Finset.sum_comm]
      refine Finset.sum_congr rfl fun k _ => ?_
      rw [← Finset.mul_sum]
      congr 1
      simp only [Matrix.sub_apply]
      rw [Finset.sum_sub_distrib]
      congr 1
      simp [Matrix.one_apply, Finset.sum_ite_eq]
    calc (∑ k : Fin (split_matrix m).2.length,
        ((matToList F).getD 0 []).getD (↑k) 0
          * (1 - ((transientIdx m).map (rowProb m ((transientIdx m).getD (↑k) 0))).sum))
        = ∑ k : Fin (split_matrix m).2.length,
            F ⟨0, hnq0⟩ k * (1 - ∑ l : Fin (split_matrix m).2.length,
              listToMat (split_matrix m).2.length (split_matrix m).2.length
                (split_matrix m).2 k l) := Finset.sum_congr rfl (fun k _ => h1k k)
      _ = 1 := hexp.symm.trans hmain
  calc (∑ j : Fin ((split_matrix m).1.headD []).length,
      (listToMat (matToList F).length (split_matrix m).1.length (matToList F)
        * listToMat (split_matrix m).1.length ((split_matrix m).1.headD []).length
            (split_matrix m).1) ⟨0, hfpos⟩ j)
      = ∑ j : Fin ((split_matrix m).1.headD []).length,
          ∑ k : Fin (split_matrix m).1.length,
            ((matToList F).getD 0 []).getD (↑k) 0
              * ((split_matrix m).1.getD (↑k) []).getD (↑j) 0 :=
        Finset.sum_congr rfl (fun j _ => hterm j)
    _ = ∑ k : Fin (split_matrix m).1.length,
          ∑ j : Fin ((split_matrix m).1.headD []).length,
            ((matToList F).getD 0 []).getD (↑k) 0
              * ((split_matrix m).1.getD (↑k) []).getD (↑j) 0 := Finset.sum_comm
    _ = ∑ k : Fin (split_matrix m).1.length,
          ((matToList F).getD 0 []).getD (↑k) 0
            * (1 - ((transientIdx m).map (rowProb m ((transientIdx m).getD (↑k) 0))).sum) :=
        Finset.sum_congr rfl (fun k _ => hstep1 k)
    _ = ∑ k : Fin (split_matrix m).2.length,
          ((matToList F).getD 0 []).getD (↑k) 0
            * (1 - ((transientIdx m).map (rowProb m ((transientIdx m).getD (↑k) 0))).sum) :=
        sum_fin_eq_sum_fin (hRlen.trans hqlen.symm)
          (fun k : ℕ => ((matToList F).getD 0 []).getD k 0
            * (1 - ((transientIdx m).map (rowProb m ((transientIdx m).getD k 0))).sum))
    _ = 1 := hid

end Doomsday

namespace Doomsday

/-- C3 (amended): over the exact-rational idealization of the pipeline — the
algorithm's mathematical intent, realised by the float program whenever no
rounding interferes — every square input matrix whose chain absorbs (from
every state there is a path of observed transitions to a terminal state)
yields a list of numerators followed by a final denominator, and the
numerators sum exactly to the denominator: all the probability mass is
accounted for.  The float program itself can violate this exactness through
`limit_denominator`'s `10^6` bound (see the counterexample): this theorem is
about the exact semantics. -/
theorem C3_probability_mass_one {m : List (List ℕ)} (hsq : square m)
    (hab : absorbs m) :
    ∃ (Ns : List ℤ) (L : ℕ), absorption_fractions m = .ok (Ns ++ [(L : ℤ)])
      ∧ Ns.sum = (L : ℤ) ∧ 0 < L := by
  by_cases hguard : m.length ≤ 1 ∨ (m.headD []).sum = 0
  · refine ⟨[1], 1, ?_, by decide, one_pos⟩
    show Doomsday.solution m = _
    rw [solution_guard hguard]
    rfl
  · have hg := hguard
    push_neg at hg
    obtain ⟨h1, h0⟩ := hg
    have hdet := det_ok_of_absorbs hsq hab
    have hdetF : detF (split_matrix m).2.length
        ((1 : Matrix (Fin (split_matrix m).2.length) (Fin (split_matrix m).2.length) ℚ)
          - listToMat (split_matrix m).2.length (split_matrix m).2.length
              (split_matrix m).2) ≠ 0 := by
      rw [detF_eq_det]
      exact hdet
    have hFQ : ((detF (split_matrix m).2.length
          ((1 : Matrix (Fin (split_matrix m).2.length) (Fin (split_matrix m).2.length) ℚ)
            - listToMat (split_matrix m).2.length (split_matrix m).2.length
                (split_matrix m).2))⁻¹
        • adjF (split_matrix m).2.length
          ((1 : Matrix (Fin (split_matrix m).2.length) (Fin (split_matrix m).2.length) ℚ)
            - listToMat (split_matrix m).2.length (split_matrix m).2.length
                (split_matrix m).2))
        * ((1 : Matrix (Fin (split_matrix m).2.length) (Fin (split_matrix m).2.length) ℚ)
            - listToMat (split_matrix m).2.length (split_matrix m).2.length
                (split_matrix m).2) = 1 := by
      rw [adjF_eq_adjugate, Matrix.smul_mul, Matrix.adjugate_mul, detF_eq_det, smul_smul,
        inv_mul_cancel₀ hdet, one_smul]
    obtain ⟨hfrlen, hfrsum⟩ := fr_head_props hsq h1 h0 _ hFQ
    obtain ⟨Ns, L, hprob, hsum, hLpos⟩ := probabilities_sum hfrsum
    refine ⟨Ns, L, ?_, hsum, hLpos⟩
    show Doomsday.solution m = _
    rw [solution_else hguard, find_f_ok hdetF]
    exact congrArg Except.ok hprob

/-- Witness for C3 at the absorbing chain `[[0,1],[0,0]]` (state 0 jumps to
the terminal state 1). -/
theorem C3_probability_mass_one_witness :
    ∃ (Ns : List ℤ) (L : ℕ),
      absorption_fractions [[0,1],[0,0]] = .ok (Ns ++ [(L : ℤ)])
        ∧ Ns.sum = (L : ℤ) ∧ 0 < L :=
  C3_probability_mass_one (by unfold square; decide)
    (by
      intro i hi
      have hi2 : i < 2 := by simpa using hi
      interval_cases i
      · exact ⟨1, by unfold terminal; decide,
          Relation.ReflTransGen.single (by unfold step; decide)⟩
      · exact ⟨1, by unfold terminal; decide, Relation.ReflTransGen.refl⟩)

/-- C1 (amended): over the exact-rational idealization of the pipeline — the
algorithm's mathematical intent, realised by the float program whenever no
rounding interferes — every square matrix of counts with at least two rows, a
start row of positive sum and an absorbing chain yields one numerator per
terminal state (the terminal states being exactly the rows of zero sum, taken
in input order) followed by a single positive denominator, and the greatest
common divisor of all emitted integers is 1.  The float program itself can
instead raise a singular-matrix error when rounding collapses `I - Q` (see
the counterexample): this theorem is about the exact semantics. -/
theorem C1_reduced_output {m : List (List ℕ)} (hsq : square m) (h2 : 2 ≤ m.length)
    (h0 : (m.headD []).sum ≠ 0) (hab : absorbs m) :
    ∃ (Ns : List ℤ) (L : ℕ),
      absorption_fractions m = .ok (Ns ++ [(L : ℤ)])
      ∧ Ns.length = (absorbingIdx m).length
      ∧ (∀ c, c ∈ absorbingIdx m ↔ (c < m.length ∧ terminal m c))
      ∧ 0 < L
      ∧ listGcd (Ns ++ [(L : ℤ)]) = 1 := by
  have hguard : ¬ (m.length ≤ 1 ∨ (m.headD []).sum = 0) := by
    push_neg
    exact ⟨by omega, h0⟩
  have h1 : 1 < m.length := by omega
  have hdet := det_ok_of_absorbs hsq hab
  have hdetF : detF (split_matrix m).2.length
      ((1 : Matrix (Fin (split_matrix m).2.length) (Fin (split_matrix m).2.length) ℚ)
        - listToMat (split_matrix m).2.length (split_matrix m).2.length
            (split_matrix m).2) ≠ 0 := by
    rw [detF_eq_det]
    exact hdet
  have hFQ : ((detF (split_matrix m).2.length
        ((1 : Matrix (Fin (split_matrix m).2.length) (Fin (split_matrix m).2.length) ℚ)
          - listToMat (split_matrix m).2.length (split_matrix m).2.length
              (split_matrix m).2))⁻¹
      • adjF (split_matrix m).2.length
        ((1 : Matrix (Fin (split_matrix m).2.length) (Fin (split_matrix m).2.length) ℚ)
          - listToMat (split_matrix m).2.length (split_matrix m).2.length
              (split_matrix m).2))
      * ((1 : Matrix (Fin (split_matrix m).2.length) (Fin (split_matrix m).2.length) ℚ)
          - listToMat (split_matrix m).2.length (split_matrix m).2.length
              (split_matrix m).2) = 1 := by
    rw [adjF_eq_adjugate, Matrix.smul_mul, Matrix.adjugate_mul, detF_eq_det, smul_smul,
      inv_mul_cancel₀ hdet, one_smul]
  obtain ⟨hfrlen, hfrsum⟩ := fr_head_props hsq h1 h0 _ hFQ
  obtain ⟨Ns, L, hprob, hsum, hLpos⟩ := probabilities_sum hfrsum
  have hNslen : Ns.length = (absorbingIdx m).length := by
    have hpl := congrArg List.length hprob
    rw [probabilities_length, List.length_append] at hpl
    simp only [List.length_singleton] at hpl
    omega
  have hgcd : listGcd (Ns ++ [(L : ℤ)]) = 1 := by
    rw [← hprob]
    exact probabilities_gcd _
  refine ⟨Ns, L, ?_, hNslen, fun c => mem_absorbingIdx, hLpos, hgcd⟩
  show Doomsday.solution m = _
  rw [solution_else hguard, find_f_ok hdetF]
  exact congrArg Except.ok hprob

/-- Witness for C1 at the absorbing chain `[[0,1],[0,0]]`. -/
theorem C1_reduced_output_witness :
    ∃ (Ns : List ℤ) (L : ℕ),
      absorption_fractions [[0,1],[0,0]] = .ok (Ns ++ [(L : ℤ)])
      ∧ Ns.length = (absorbingIdx [[0,1],[0,0]]).length
      ∧ (∀ c, c ∈ absorbingIdx [[0,1],[0,0]]
          ↔ (c < ([[0,1],[0,0]] : List (List ℕ)).length ∧ terminal [[0,1],[0,0]] c))
      ∧ 0 < L
      ∧ listGcd (Ns ++ [(L : ℤ)]) = 1 :=
  C1_reduced_output (by unfold square; decide) (by decide) (by decide)
    (by
      intro i hi
      have hi2 : i < 2 := by simpa using hi
      interval_cases i
      · exact ⟨1, by unfold terminal; decide,
          Relation.ReflTransGen.single (by unfold step; decide)⟩
      · exact ⟨1, by unfold terminal; decide, Relation.ReflTransGen.refl⟩)

end Doomsday

namespace Doomsday

set_option maxRecDepth 4000 in
/-- C1 counterexample (float behaviour): `[[10^17 - 1, 1], [0, 0]]` satisfies
every hypothesis of the claim — square, two rows, positive start-row sum,
absorbing chain — yet the float program raises instead of returning the
promised list: `(10^17 - 1) / 10^17` rounds to exactly `1.0`, the float
`I - Q` is `[[0.0]]`, and `np.linalg.inv` raises
`LinAlgError("Singular matrix")`. -/
theorem C1_float_counterexample :
    square [[99999999999999999,1],[0,0]]
    ∧ 2 ≤ ([[99999999999999999,1],[0,0]] : List (List ℕ)).length
    ∧ (([[99999999999999999,1],[0,0]] : List (List ℕ)).headD []).sum ≠ 0
    ∧ absorbs [[99999999999999999,1],[0,0]]
    ∧ solutionF [[99999999999999999,1],[0,0]] = .error "Singular matrix" := by
  refine ⟨by unfold square; decide, by decide, by decide, ?_,
    by with_unfolding_all rfl⟩
  intro i hi
  have hi2 : i < 2 := by simpa using hi
  interval_cases i
  · exact ⟨1, by unfold terminal; decide,
      Relation.ReflTransGen.single (by unfold step; decide)⟩
  · exact ⟨1, by unfold terminal; decide, Relation.ReflTransGen.refl⟩

set_option maxRecDepth 4000 in
/-- C3 counterexample (float behaviour): on the square absorbing matrix
`[[0,2,500000,500001],[0,0,0,0],[0,0,0,0],[0,0,0,0]]` the float program's
`limit_denominator` approximations `1/500002`, `333333/666668` and
`499999/999999` do not sum to 1, so the emitted numerators do not sum to the
emitted denominator. -/
theorem C3_float_counterexample :
    square [[0,2,500000,500001],[0,0,0,0],[0,0,0,0],[0,0,0,0]]
    ∧ absorbs [[0,2,500000,500001],[0,0,0,0],[0,0,0,0],[0,0,0,0]]
    ∧ solutionF [[0,2,500000,500001],[0,0,0,0],[0,0,0,0],[0,0,0,0]]
        = .ok ([333333666666, 83333499999416667, 83333666666333332]
            ++ [(166667500000333332 : ℤ)])
    ∧ ([333333666666, 83333499999416667, 83333666666333332] : List ℤ).sum
        ≠ (166667500000333332 : ℤ) := by
  refine ⟨by unfold square; decide, ?_, by with_unfolding_all rfl, by decide⟩
  intro i hi
  have hi4 : i < 4 := by simpa using hi
  interval_cases i
  · exact ⟨1, by unfold terminal; decide,
      Relation.ReflTransGen.single (by unfold step; decide)⟩
  · exact ⟨1, by unfold terminal; decide, Relation.ReflTransGen.refl⟩
  · exact ⟨2, by unfold terminal; decide, Relation.ReflTransGen.refl⟩
  · exact ⟨3, by unfold terminal; decide, Relation.ReflTransGen.refl⟩

set_option maxRecDepth 4000 in
/-- C5 (amended): the implementation never raises a "non-absorbing chain"
error.  A precondition-violating input whose start row is terminal flows
through the degenerate guard and silently returns `[1, 1]`
(`[[0,0],[0,1]]`: its state 1 is non-terminal and reaches no terminal state);
and when rounding leaves the float `I - Q` exactly singular, the only signal
is the uncaught `LinAlgError("Singular matrix")` propagating out of
`np.linalg.inv` (`[[1,1,0],[1,1,0],[0,0,0]]`: states 0 and 1 exchange
forever, the float `I - Q` is `[[0.5,-0.5],[-0.5,0.5]]`, and the program
raises). -/
theorem C5_amended_silent_guard :
    ((¬ terminal [[0,0],[0,1]] 1
        ∧ ∀ c, terminal [[0,0],[0,1]] c → ¬ reaches [[0,0],[0,1]] 1 c)
      ∧ absorption_fractions [[0,0],[0,1]] = Except.ok [1, 1])
    ∧ ((¬ terminal [[1,1,0],[1,1,0],[0,0,0]] 0
        ∧ ∀ c, terminal [[1,1,0],[1,1,0],[0,0,0]] c
            → ¬ reaches [[1,1,0],[1,1,0],[0,0,0]] 0 c)
      ∧ solutionF [[1,1,0],[1,1,0],[0,0,0]] = .error "Singular matrix") := by
  refine ⟨⟨⟨by unfold terminal; decide, fun c hc hr => ?_⟩, by with_unfolding_all rfl⟩,
    ⟨⟨by unfold terminal; decide, fun c hc hr => ?_⟩, by with_unfolding_all rfl⟩⟩
  · have hfix : ∀ x, reaches [[0,0],[0,1]] 1 x → x = 1 := by
      intro x hx
      induction hx with
      | refl => rfl
      | tail _ hstep ih =>
        subst ih
        rename_i b _
        unfold step at hstep
        match b, hstep with
        | 0, hstep => simp [List.getD] at hstep
        | 1, hstep => rfl
        | n+2, hstep => simp [List.getD] at hstep
    have h1 := hfix c hr
    subst h1
    exact absurd hc (by unfold terminal; decide)
  · have hfix : ∀ x, reaches [[1,1,0],[1,1,0],[0,0,0]] 0 x → x = 0 ∨ x = 1 := by
      intro x hx
      induction hx with
      | @tail b c' hsb hstep ih =>
        unfold step at hstep
        rcases ih with h | h
        · subst h
          match c', hstep with
          | 0, _ => exact Or.inl rfl
          | 1, _ => exact Or.inr rfl
          | 2, hstep => simp [List.getD] at hstep
          | n+3, hstep => simp [List.getD] at hstep
        · subst h
          match c', hstep with
          | 0, _ => exact Or.inl rfl
          | 1, _ => exact Or.inr rfl
          | 2, hstep => simp [List.getD] at hstep
          | n+3, hstep => simp [List.getD] at hstep
      | refl => exact Or.inl rfl
    rcases hfix c hr with h | h <;> subst h <;>
      exact absurd hc (by unfold terminal; decide)

end Doomsday
